import Mathlib

/-!
# Verification of the core engine of `axone-protocol/prolog`

This file contains a shallow embedding, in Lean 4, of the parts of the
`axone-protocol/prolog` engine that the specification's claims are about:

* the term model (`engine.Term` and its variants),
* the persistent red-black binding environment (`engine.Env` with
  `newEnvKey`, `bind`, `insert`, `balance`, `lookup`, `Resolve`),
* the unifier with its optional occurs check (`Env.unify`, `contains`),
* dicts (`processArgs`/`NewDict`, `dict.Value`, `Op3`, `GetDict3`),
* the promise trampoline (`Promise`, `Force`, `promiseStack.popUntil`),
* `findall/3` / `bagof/3` (`VM.FindAll`, `VM.collectionOf`),
* the procedure database (`VM.setProcedure` over an insertion-ordered map)
  and `current_predicate/1`,
* the byte-input bounds check of `get_byte/2` (`VM.GetByte`).

Go code is translated as faithfully as possible: machine integers become
`Int` (the quantities involved never overflow `int64` in the claims
considered), nil-able pointers become dedicated `nil` constructors or
`Option`, fallible code returns `Option`/`Except`, and functions that can
diverge on cyclic environments (the Go originals can—environments may be
cyclic because the occurs check is optional) take an explicit fuel
parameter and return `none` on fuel exhaustion.
-/

namespace Spec2Proof

set_option maxHeartbeats 1000000

/-- The Prolog term model (`engine.Term`): variables carry the integer
identity from the engine's variable counter (`engine.Variable`, an
`int64`), atoms are interned symbols compared by their textual form,
integers are machine integers, and compounds pair a functor atom with an
ordered argument list.  List cells are compounds with functor `"."`, the
empty list is the atom `"[]"`, and a dict is a compound with functor
`"dict"`.  (`Float` and the custom atomic terms are not needed by any
claim and are omitted; no claim distinguishes them from other atomics.) -/
inductive PTerm where
  | var (v : Int)
  | atom (a : String)
  | int (n : Int)
  | compound (f : String) (args : List PTerm)
deriving Repr

/-- Go interface equality `t == s` as the engine uses it in `unify` and
`contains`: it is true when the two dynamic types coincide and the values
are equal.  Compound terms are pointers in Go, so `==` on two compounds is
pointer identity; the engine only reaches these comparisons with a
non-compound on at least one side, and distinct syntactic occurrences are
distinct pointers, so compounds compare unequal here. -/
def goEq : PTerm → PTerm → Bool
  | .var a, .var b => a == b
  | .atom a, .atom b => a == b
  | .int a, .int b => a == b
  | _, _ => false

/-- Model of `newEnvKey` (src/unnamed/part_002): the order-preserving transform
from a variable identity to a tree key.  Go's `/` on integers truncates
toward zero, which is Lean's `Int.tdiv`. -/
def newEnvKey (v : Int) : Int :=
  if Int.tdiv v 2 ≠ 0 then -v else v

/-- Node colors of the red-black environment tree. -/
inductive Color where
  | red
  | black
deriving Repr, DecidableEq

/-- The persistent red-black binding tree (`engine.Env`): the Go struct
has a color, two nil-able child pointers and a `binding` (key/value);
`nil` models the nil `*Env` pointer. -/
inductive ETree where
  | nil
  | node (c : Color) (l : ETree) (key : Int) (value : PTerm) (r : ETree)
deriving Repr

namespace ETree

/-- Whether a (possibly nil) node is red, as tested by `Env.balance`
(`e.left != nil && e.left.color == red`). -/
def isRed : ETree → Bool
  | .node .red _ _ _ _ => true
  | _ => false

/-- Model of `Env.balance` (src/unnamed/part_002): the Okasaki rebalancing step.
The Go code is a nested switch; the patterns below are listed in exactly
the order the Go code tests them (left-left, left-right, then—only when
the left child is not red—right-left and right-right), so first-match
semantics coincide. -/
def balance : ETree → ETree
  | .node _ (.node .red (.node .red a xk xv b) yk yv c) zk zv d =>
      .node .red (.node .black a xk xv b) yk yv (.node .black c zk zv d)
  | .node _ (.node .red a xk xv (.node .red b yk yv c)) zk zv d =>
      .node .red (.node .black a xk xv b) yk yv (.node .black c zk zv d)
  | .node c (.node .red a xk xv b) zk zv d =>
      .node c (.node .red a xk xv b) zk zv d
  | .node _ a xk xv (.node .red (.node .red b yk yv c) zk zv d) =>
      .node .red (.node .black a xk xv b) yk yv (.node .black c zk zv d)
  | .node _ a xk xv (.node .red b yk yv (.node .red c zk zv d)) =>
      .node .red (.node .black a xk xv b) yk yv (.node .black c zk zv d)
  | t => t

/-- Model of `Env.insert` (src/unnamed/part_002): path-copying insertion followed
by a `balance` of the copied node; an equal key overwrites the value in
a copy of the node. -/
def insert (t : ETree) (k : Int) (v : PTerm) : ETree :=
  match t with
  | .nil => .node .red .nil k v .nil
  | .node c l key val r =>
    if k < key then balance (.node c (insert l k v) key val r)
    else if k > key then balance (.node c l key val (insert r k v))
    else .node c l key v r

/-- The binary-tree search of `Env.lookup` (the loop body, on an already
non-nil root). -/
def lookupT (t : ETree) (k : Int) : Option PTerm :=
  match t with
  | .nil => none
  | .node _ l key v r =>
    if k < key then lookupT l k
    else if k > key then lookupT r k
    else some v

/-- In-order binding list of the tree (proof device). -/
def toList : ETree → List (Int × PTerm)
  | .nil => []
  | .node _ l k v r => toList l ++ (k, v) :: toList r

/-- Repainting the root black, as `Env.bind` does (`ret.color = black`). -/
def setBlack : ETree → ETree
  | .nil => .nil
  | .node _ l k v r => .node .black l k v r

end ETree

/-- Model of `vm.varContext()`: the engine's distinguished context variable, the
first variable the engine allocates (the counter starts at `0` and
`NewVariable` pre-increments). -/
def varContext : Int := 1

/-- Model of `rootContext = NewAtom("root")`. -/
def rootContext : PTerm := .atom "root"

/-- Model of `vm.rootEnv()` (src/unnamed/part_002): the one-binding tree
`varContext ↦ 'root'` substituted for a nil environment;
the Go struct literal leaves the color at its zero value (`red`). -/
def rootTree : ETree :=
  .node .red .nil (newEnvKey varContext) rootContext .nil

/-- The `node := e; if node == nil { node = vm.rootEnv() }` prelude shared
by `Env.lookup` and `Env.bind`. -/
def unwrapEnv (e : ETree) : ETree :=
  match e with
  | .nil => rootTree
  | t => t

/-- Model of `Env.lookup` (src/unnamed/part_002): `some t` models `(t, true)`,
`none` models `(nil, false)`. -/
def lookup (e : ETree) (v : Int) : Option PTerm :=
  ETree.lookupT (unwrapEnv e) (newEnvKey v)

/-- Model of `Env.bind` (src/unnamed/part_002): persistent insertion producing a
new environment value, root repainted black. -/
def bind (e : ETree) (v : Int) (t : PTerm) : ETree :=
  ETree.setBlack (ETree.insert (unwrapEnv e) (newEnvKey v) t)

/-- Shorthand for the strict key order on binding pairs. -/
def keyLT (a b : Int × PTerm) : Prop := a.1 < b.1

instance : DecidableRel keyLT := fun a b => by
  unfold keyLT; infer_instance

/-- The search-tree invariant: the in-order binding list has strictly
increasing keys.  It holds for every environment the engine can build
(it is preserved by `bind`, see `C1_env_persistence`) and is what makes
the binary search of `lookup` agree with the recorded bindings. -/
def EnvWF (e : ETree) : Prop :=
  List.Pairwise keyLT (ETree.toList (unwrapEnv e))

instance : DecidablePred EnvWF := fun e => by
  unfold EnvWF; infer_instance

/-! ## Association-list model of the binding tree -/

/-- Association lookup on a binding list (the functional model `lookupT`
is proved against). -/
def assocKey (k : Int) : List (Int × PTerm) → Option PTerm
  | [] => none
  | (k', v) :: rest => if k = k' then some v else assocKey k rest

/-- Insertion into a binding list at the sorted position, overwriting an
equal key (the list-level model of `ETree.insert`). -/
def insList (k : Int) (v : PTerm) : List (Int × PTerm) → List (Int × PTerm)
  | [] => [(k, v)]
  | (k', v') :: rest =>
    if k < k' then (k, v) :: (k', v') :: rest
    else if k > k' then (k', v') :: insList k v rest
    else (k, v) :: rest

theorem assocKey_append (k : Int) (l₁ l₂ : List (Int × PTerm)) :
    assocKey k (l₁ ++ l₂) =
      match assocKey k l₁ with
      | some v => some v
      | none => assocKey k l₂ := by
  induction l₁ with
  | nil => simp [assocKey]
  | cons p rest ih =>
    obtain ⟨k', v⟩ := p
    by_cases h : k = k' <;> simp [assocKey, h, ih]

theorem assocKey_eq_none (k : Int) (l : List (Int × PTerm))
    (h : ∀ p ∈ l, p.1 ≠ k) : assocKey k l = none := by
  induction l with
  | nil => rfl
  | cons p rest ih =>
    obtain ⟨k', v⟩ := p
    have hk : k ≠ k' := fun he => (h (k', v) (by simp)) (by simp [he])
    simp only [assocKey, if_neg hk]
    exact ih fun p hp => h p (by simp [hp])

theorem mem_insList (k : Int) (v : PTerm) (l : List (Int × PTerm)) :
    ∀ p ∈ insList k v l, p.1 = k ∨ p ∈ l := by
  induction l with
  | nil => intro p hp; simp [insList] at hp; simp [hp]
  | cons q rest ih =>
    obtain ⟨k', v'⟩ := q
    intro p hp
    by_cases h1 : k < k'
    · simp [insList, h1] at hp
      rcases hp with h | h | h
      · simp [h]
      · simp [h]
      · simp [h]
    · by_cases h2 : k > k'
      · simp [insList, h1, h2] at hp
        rcases hp with h | h
        · simp [h]
        · rcases ih p h with h' | h'
          · exact Or.inl h'
          · simp [h']
      · simp [insList, h1, h2] at hp
        rcases hp with h | h
        · simp [h]
        · simp [h]

theorem pairwise_insList (k : Int) (v : PTerm) (l : List (Int × PTerm))
    (h : List.Pairwise keyLT l) : List.Pairwise keyLT (insList k v l) := by
  induction l with
  | nil => simp [insList, List.Pairwise]
  | cons q rest ih =>
    obtain ⟨k', v'⟩ := q
    rw [List.pairwise_cons] at h
    obtain ⟨hq, hrest⟩ := h
    by_cases h1 : k < k'
    · simp only [insList, if_pos h1]
      refine List.Pairwise.cons ?_ (List.Pairwise.cons hq hrest)
      intro p hp
      rcases List.mem_cons.mp hp with hp | hp
      · simp [keyLT, hp, h1]
      · have := hq p hp
        simp only [keyLT] at this ⊢
        omega
    · by_cases h2 : k > k'
      · simp only [insList, if_neg h1, if_pos h2]
        refine List.Pairwise.cons ?_ (ih hrest)
        intro p hp
        rcases mem_insList k v rest p hp with hp' | hp'
        · simp [keyLT, hp']; omega
        · exact hq p hp'
      · have hk : k = k' := by omega
        simp only [insList, if_neg h1, if_neg h2]
        refine List.Pairwise.cons ?_ hrest
        intro p hp
        have := hq p hp
        simp only [keyLT] at this ⊢
        omega

theorem assocKey_insList_self (k : Int) (v : PTerm) (l : List (Int × PTerm)) :
    assocKey k (insList k v l) = some v := by
  induction l with
  | nil => simp [insList, assocKey]
  | cons q rest ih =>
    obtain ⟨k', v'⟩ := q
    by_cases h1 : k < k'
    · simp [insList, h1, assocKey]
    · by_cases h2 : k > k'
      · have : k ≠ k' := by omega
        simp [insList, h1, h2, assocKey, this, ih]
      · simp [insList, h1, h2, assocKey]

theorem assocKey_insList_other (k k' : Int) (v : PTerm)
    (l : List (Int × PTerm)) (hne : k' ≠ k) :
    assocKey k' (insList k v l) = assocKey k' l := by
  induction l with
  | nil => simp [insList, assocKey, hne]
  | cons q rest ih =>
    obtain ⟨a, b⟩ := q
    by_cases h1 : k < a
    · simp [insList, h1, assocKey, hne]
    · by_cases h2 : k > a
      · by_cases h3 : k' = a <;> simp [insList, h1, h2, assocKey, h3, ih]
      · have hk : k = a := by omega
        subst hk
        simp [insList, h1, h2, assocKey, hne]

/-- Lemma A: inserting a key smaller than the pivot of an append stays in
the left part. -/
theorem insList_append_lt (k k₂ : Int) (v v₂ : PTerm)
    (l₁ l₂ : List (Int × PTerm)) (h : k < k₂) :
    insList k v (l₁ ++ (k₂, v₂) :: l₂) = insList k v l₁ ++ (k₂, v₂) :: l₂ := by
  induction l₁ with
  | nil => simp [insList, h]
  | cons q rest ih =>
    obtain ⟨a, b⟩ := q
    by_cases h1 : k < a
    · simp [insList, h1]
    · by_cases h2 : k > a
      · simp [insList, h1, h2, ih]
      · simp [insList, h1, h2]

/-- Lemma B: inserting a key larger than everything up to and including
the pivot goes to the right part. -/
theorem insList_append_gt (k k₂ : Int) (v v₂ : PTerm)
    (l₁ l₂ : List (Int × PTerm)) (h : k₂ < k) (hall : ∀ p ∈ l₁, p.1 < k) :
    insList k v (l₁ ++ (k₂, v₂) :: l₂) = l₁ ++ (k₂, v₂) :: insList k v l₂ := by
  induction l₁ with
  | nil =>
    have h1 : ¬ k < k₂ := by omega
    simp [insList, h1, h]
  | cons q rest ih =>
    obtain ⟨a, b⟩ := q
    have ha : a < k := hall (a, b) (by simp)
    have h1 : ¬ k < a := by omega
    have h2 : k > a := ha
    simp only [List.cons_append, insList, if_neg h1, if_pos h2]
    have hih := ih fun p hp => hall p (by simp [hp])
    simp only [List.append_eq]
    rw [hih]

/-- Lemma C: inserting at exactly the pivot key overwrites the pivot. -/
theorem insList_append_eq (k : Int) (v v₂ : PTerm)
    (l₁ l₂ : List (Int × PTerm)) (hall : ∀ p ∈ l₁, p.1 < k) :
    insList k v (l₁ ++ (k, v₂) :: l₂) = l₁ ++ (k, v) :: l₂ := by
  induction l₁ with
  | nil => simp [insList]
  | cons q rest ih =>
    obtain ⟨a, b⟩ := q
    have ha : a < k := hall (a, b) (by simp)
    have h1 : ¬ k < a := by omega
    have h2 : k > a := ha
    simp only [List.cons_append, insList, if_neg h1, if_pos h2]
    have hih := ih fun p hp => hall p (by simp [hp])
    simp only [List.append_eq]
    rw [hih]

/-! ## Correctness of the tree operations -/

/-- Rebalancing rearranges the tree but leaves the in-order binding list
unchanged. -/
theorem toList_balance (t : ETree) :
    ETree.toList (ETree.balance t) = ETree.toList t := by
  unfold ETree.balance
  split <;> simp [ETree.toList, List.append_assoc]

/-- Repainting the root leaves the in-order binding list unchanged. -/
theorem toList_setBlack (t : ETree) :
    ETree.toList (ETree.setBlack t) = ETree.toList t := by
  cases t <;> rfl

/-- Insertion never returns a nil tree. -/
theorem insert_ne_nil (t : ETree) (k : Int) (v : PTerm) :
    ETree.insert t k v ≠ .nil := by
  cases t with
  | nil => simp [ETree.insert]
  | node c l key val r =>
    simp only [ETree.insert]
    by_cases h1 : k < key
    · simp only [if_pos h1]
      unfold ETree.balance
      split <;> simp
    · by_cases h2 : k > key
      · simp only [if_neg h1, if_pos h2]
        unfold ETree.balance
        split <;> simp
      · simp [h1, h2]

/-- On a tree whose in-order key list is strictly increasing, the binary
search of `lookupT` computes association lookup on the binding list. -/
theorem lookupT_eq_assocKey (t : ETree) (k : Int)
    (h : List.Pairwise keyLT (ETree.toList t)) :
    ETree.lookupT t k = assocKey k (ETree.toList t) := by
  induction t with
  | nil => rfl
  | node c l key v r ihl ihr =>
    simp only [ETree.toList] at h
    rw [List.pairwise_append] at h
    obtain ⟨hl, hmid, hcross⟩ := h
    rw [List.pairwise_cons] at hmid
    obtain ⟨hkeyr, hr⟩ := hmid
    have hlk : ∀ p ∈ ETree.toList l, p.1 < key :=
      fun p hp => hcross p hp (key, v) (by simp)
    simp only [ETree.lookupT, ETree.toList]
    by_cases h1 : k < key
    · rw [if_pos h1, assocKey_append, ihl hl]
      cases hassoc : assocKey k (ETree.toList l) with
      | some w => simp
      | none =>
        have : assocKey k ((key, v) :: ETree.toList r) = none := by
          apply assocKey_eq_none
          intro p hp
          rcases List.mem_cons.mp hp with hp | hp
          · subst hp; simpa using (by omega : key ≠ k)
          · have := hkeyr p hp
            simp only [keyLT] at this
            omega
        simp [this]
    · by_cases h2 : k > key
      · rw [if_neg h1, if_pos h2, assocKey_append]
        have hnone : assocKey k (ETree.toList l) = none := by
          apply assocKey_eq_none
          intro p hp
          have := hlk p hp
          omega
        rw [hnone]
        show ETree.lookupT r k = assocKey k ((key, v) :: ETree.toList r)
        simp only [assocKey, if_neg (show ¬ k = key by omega)]
        exact ihr hr
      · have hk : k = key := by omega
        subst hk
        rw [if_neg h1, if_neg h2, assocKey_append]
        have hnone : assocKey k (ETree.toList l) = none := by
          apply assocKey_eq_none
          intro p hp
          have := hlk p hp
          omega
        rw [hnone]
        show some v = assocKey k ((k, v) :: ETree.toList r)
        simp [assocKey]

/-- On a search tree, `insert` edits the in-order binding list exactly as
the list-level `insList`. -/
theorem toList_insert (t : ETree) (k : Int) (v : PTerm)
    (h : List.Pairwise keyLT (ETree.toList t)) :
    ETree.toList (ETree.insert t k v) = insList k v (ETree.toList t) := by
  induction t with
  | nil => rfl
  | node c l key val r ihl ihr =>
    simp only [ETree.toList] at h
    rw [List.pairwise_append] at h
    obtain ⟨hl, hmid, hcross⟩ := h
    rw [List.pairwise_cons] at hmid
    obtain ⟨hkeyr, hr⟩ := hmid
    have hlk : ∀ p ∈ ETree.toList l, p.1 < key :=
      fun p hp => hcross p hp (key, val) (by simp)
    simp only [ETree.insert]
    by_cases h1 : k < key
    · rw [if_pos h1, toList_balance]
      simp only [ETree.toList]
      rw [ihl hl, insList_append_lt _ _ _ _ _ _ h1]
    · by_cases h2 : k > key
      · rw [if_neg h1, if_pos h2, toList_balance]
        simp only [ETree.toList]
        rw [ihr hr, insList_append_gt _ _ _ _ _ _ h2
          (fun p hp => by have := hlk p hp; omega)]
      · have hk : k = key := by omega
        subst hk
        rw [if_neg h1, if_neg h2]
        simp only [ETree.toList]
        rw [insList_append_eq _ _ _ _ _ hlk]

/-- Key generation is injective: distinct variables get distinct tree keys. -/
theorem newEnvKey_injective : Function.Injective newEnvKey := by
  have hchar : ∀ k : Int, newEnvKey k = if k.natAbs ≤ 1 then k else -k := by
    intro k
    have hiff : Int.tdiv k 2 = 0 ↔ k.natAbs ≤ 1 := by
      cases k with
      | ofNat n =>
        have ht : Int.tdiv (Int.ofNat n) 2 = Int.ofNat (n / 2) := rfl
        rw [ht]
        simp only [Int.ofNat_eq_coe, Int.natAbs_ofNat]
        omega
      | negSucc n =>
        have ht : Int.tdiv (Int.negSucc n) 2 = -Int.ofNat ((n + 1) / 2) := rfl
        rw [ht]
        simp only [Int.ofNat_eq_coe, Int.natAbs_negSucc]
        omega
    unfold newEnvKey
    by_cases h : Int.tdiv k 2 = 0
    · rw [if_neg (by simpa using h), if_pos (hiff.mp h)]
    · rw [if_pos h, if_neg (fun hle => h (hiff.mpr hle))]
  intro a b hab
  rw [hchar a, hchar b] at hab
  by_cases ha : a.natAbs ≤ 1 <;> by_cases hb : b.natAbs ≤ 1 <;>
    simp only [if_pos, if_neg, ha, hb, ite_true, ite_false] at hab <;> omega

/-- Binding always produces a non-nil node, so the nil check
of a later `lookup`/`bind` on the new environment does not substitute the
root environment. -/
theorem unwrapEnv_bind (e : ETree) (v : Int) (t : PTerm) :
    unwrapEnv (bind e v t) = bind e v t := by
  unfold bind
  cases hins : ETree.insert (unwrapEnv e) (newEnvKey v) t with
  | nil => exact absurd hins (insert_ne_nil _ _ _)
  | node c l k val r => rfl

/-- The in-order binding list of `bind e v t` is the sorted-position
insertion of `newEnvKey v ↦ t` into the binding list of `e`. -/
theorem toList_bind (e : ETree) (v : Int) (t : PTerm) (h : EnvWF e) :
    ETree.toList (bind e v t) =
      insList (newEnvKey v) t (ETree.toList (unwrapEnv e)) := by
  unfold bind
  rw [toList_setBlack, toList_insert _ _ _ h]

/-- C1.  The binding environment is persistent: `bind` returns a new
environment in which the bound variable looks up to the recorded term,
every other variable looks up to exactly what it looked up to in the old
environment, and the search-tree invariant is preserved (so the property
propagates along any sequence of `bind` operations).  Older snapshots are
values in this embedding, faithfully to the Go code, whose `insert`
copies every node on the path and never mutates a reachable node, so a
lookup in a pre-`bind` snapshot is literally the same computation before
and after the bind. -/
theorem pairwise_toList_bind (e : ETree) (v : Int) (t : PTerm) (h : EnvWF e) :
    List.Pairwise keyLT (ETree.toList (bind e v t)) := by
  rw [toList_bind e v t h]
  exact pairwise_insList _ _ _ h

theorem wf_bind (e : ETree) (v : Int) (t : PTerm) (h : EnvWF e) :
    EnvWF (bind e v t) := by
  unfold EnvWF
  rw [unwrapEnv_bind]
  exact pairwise_toList_bind e v t h

theorem lookup_bind_self (e : ETree) (v : Int) (t : PTerm) (h : EnvWF e) :
    lookup (bind e v t) v = some t := by
  unfold lookup
  rw [unwrapEnv_bind, lookupT_eq_assocKey _ _ (pairwise_toList_bind e v t h),
    toList_bind e v t h]
  exact assocKey_insList_self _ _ _

theorem lookup_bind_other (e : ETree) (v : Int) (t : PTerm) (w : Int)
    (h : EnvWF e) (hw : w ≠ v) : lookup (bind e v t) w = lookup e w := by
  unfold lookup
  rw [unwrapEnv_bind, lookupT_eq_assocKey _ _ (pairwise_toList_bind e v t h),
    toList_bind e v t h]
  rw [assocKey_insList_other _ _ _ _ (fun hk => hw (newEnvKey_injective hk))]
  rw [lookupT_eq_assocKey _ _ h]

theorem C1_env_persistence (e : ETree) (v : Int) (t : PTerm) (h : EnvWF e) :
    lookup (bind e v t) v = some t ∧
    (∀ w, w ≠ v → lookup (bind e v t) w = lookup e w) ∧
    EnvWF (bind e v t) :=
  ⟨lookup_bind_self e v t h,
   fun w hw => lookup_bind_other e v t w h hw,
   wf_bind e v t h⟩

/-- Witness for C1 at a concrete input: the empty environment is
well-formed; binding variable `2` to `a` makes `2` look up to `a`, leaves
variable `3`'s lookup unchanged, and preserves well-formedness. -/
theorem C1_env_persistence_witness :
    EnvWF (.nil : ETree) ∧
    lookup (bind .nil 2 (.atom "a")) 2 = some (.atom "a") ∧
    lookup (bind .nil 2 (.atom "a")) 3 = lookup .nil 3 ∧
    EnvWF (bind .nil 2 (.atom "a")) :=
  have h : EnvWF (.nil : ETree) := by decide
  have main := C1_env_persistence .nil 2 (.atom "a") h
  ⟨h, main.1, main.2.1 3 (by decide), main.2.2⟩

/-! ## Resolve: chasing the variable chain (src/unnamed/part_002) -/

/-- Keys present in an environment's tree (proof device for the
termination measure of `Resolve`). -/
def envKeys (e : ETree) : List Int :=
  (ETree.toList (unwrapEnv e)).map Prod.fst

theorem lookupT_some_mem_keys (t : ETree) (k : Int) (w : PTerm)
    (h : ETree.lookupT t k = some w) : k ∈ (ETree.toList t).map Prod.fst := by
  induction t with
  | nil => simp [ETree.lookupT] at h
  | node c l key v r ihl ihr =>
    simp only [ETree.lookupT] at h
    simp only [ETree.toList, List.map_append, List.map_cons]
    by_cases h1 : k < key
    · rw [if_pos h1] at h
      exact List.mem_append_left _ (ihl h)
    · by_cases h2 : k > key
      · rw [if_neg h1, if_pos h2] at h
        exact List.mem_append_right _ (List.mem_cons_of_mem _ (ihr h))
      · have : k = key := by omega
        subst this
        simp

theorem lookup_some_mem_envKeys (e : ETree) (v : Int) (w : PTerm)
    (h : lookup e v = some w) : newEnvKey v ∈ envKeys e :=
  lookupT_some_mem_keys _ _ _ h

theorem length_filter_le_of_imp (l : List Int) (p q : Int → Bool)
    (himp : ∀ x, q x = true → p x = true) :
    (l.filter q).length ≤ (l.filter p).length := by
  induction l with
  | nil => simp
  | cons x xs ih =>
    cases hq : q x with
    | true =>
      rw [List.filter_cons_of_pos hq, List.filter_cons_of_pos (himp x hq)]
      simpa using ih
    | false =>
      rw [List.filter_cons_of_neg (by simp [hq])]
      cases hp : p x with
      | true =>
        rw [List.filter_cons_of_pos hp]
        exact Nat.le_succ_of_le ih
      | false =>
        rw [List.filter_cons_of_neg (by simp [hp])]
        exact ih

theorem length_filter_lt_of_mem (l : List Int) (p q : Int → Bool) (a : Int)
    (ha : a ∈ l) (hpa : p a = true) (hqa : q a = false)
    (himp : ∀ x, q x = true → p x = true) :
    (l.filter q).length < (l.filter p).length := by
  induction l with
  | nil => cases ha
  | cons x xs ih =>
    by_cases hxa : x = a
    · subst hxa
      rw [List.filter_cons_of_pos hpa, List.filter_cons_of_neg (by simp [hqa])]
      exact Nat.lt_succ_of_le (length_filter_le_of_imp xs p q himp)
    · have ha' : a ∈ xs := by
        rcases List.mem_cons.mp ha with h | h
        · exact absurd h.symm hxa
        · exact h
      cases hq : q x with
      | true =>
        rw [List.filter_cons_of_pos hq, List.filter_cons_of_pos (himp x hq)]
        simpa using ih ha'
      | false =>
        rw [List.filter_cons_of_neg (by simp [hq])]
        cases hp : p x with
        | true =>
          rw [List.filter_cons_of_pos hp]
          exact Nat.lt_succ_of_lt (ih ha')
        | false =>
          rw [List.filter_cons_of_neg (by simp [hp])]
          exact ih ha'

/-- Model of `Env.Resolve` (src/unnamed/part_002): follow the variable
chain, remembering the variables seen along the chain in `stop`; a
variable already seen, or one with no binding, is terminal.  The Go loop
terminates because each iteration adds a variable that is a key of the
finite environment and was not seen before; the termination measure below
is exactly that argument. -/
def resolveAux (e : ETree) (stop : List Int) (t : PTerm) : PTerm :=
  match t with
  | .var v =>
    if v ∈ stop then .var v
    else
      match hl : lookup e v with
      | none => .var v
      | some ref => resolveAux e (stop ++ [v]) ref
  | t => t
termination_by
  ((envKeys e).filter (fun k => decide (k ∉ stop.map newEnvKey))).length
decreasing_by
  apply length_filter_lt_of_mem _ _ _ (newEnvKey v)
  · exact lookup_some_mem_envKeys e v ref hl
  · simp only [decide_eq_true_eq]
    intro hmem
    rcases List.mem_map.mp hmem with ⟨s, hs, hkey⟩
    exact (by assumption : ¬ v ∈ stop) (newEnvKey_injective hkey ▸ hs)
  · simp
  · intro x
    simp only [decide_eq_true_eq, List.map_append]
    intro hx hmem
    exact hx (List.mem_append_left _ hmem)

/-- Model of `Env.Resolve` at the engine's entry point (empty chain). -/
def resolve (e : ETree) (t : PTerm) : PTerm :=
  resolveAux e [] t


theorem resolveAux_var_mem (e : ETree) (stop : List Int) (v : Int)
    (h : v ∈ stop) : resolveAux e stop (.var v) = .var v := by
  rw [resolveAux]
  simp [h]

theorem resolveAux_var_none (e : ETree) (stop : List Int) (v : Int)
    (hmem : v ∉ stop) (h : lookup e v = none) :
    resolveAux e stop (.var v) = .var v := by
  rw [resolveAux]
  rw [if_neg hmem]
  split <;> simp_all

theorem resolveAux_var_some (e : ETree) (stop : List Int) (v : Int)
    (ref : PTerm) (hmem : v ∉ stop) (h : lookup e v = some ref) :
    resolveAux e stop (.var v) = resolveAux e (stop ++ [v]) ref := by
  rw [resolveAux]
  rw [if_neg hmem]
  split <;> simp_all

theorem resolveAux_nonvar (e : ETree) (stop : List Int) (t : PTerm)
    (h : ∀ v, t = PTerm.var v → False) : resolveAux e stop t = t := by
  cases t with
  | var v => exact absurd rfl (h v)
  | atom a => rw [resolveAux]; exact h
  | int n => rw [resolveAux]; exact h
  | compound f args => rw [resolveAux]; exact h

theorem resolve_var_of_lookup_none (e : ETree) (v : Int)
    (h : lookup e v = none) : resolve e (.var v) = .var v :=
  resolveAux_var_none e [] v (by simp) h

theorem resolve_atom (e : ETree) (a : String) :
    resolve e (.atom a) = .atom a :=
  resolveAux_nonvar e [] _ (fun _ h => PTerm.noConfusion h)

theorem resolve_int (e : ETree) (n : Int) :
    resolve e (.int n) = .int n :=
  resolveAux_nonvar e [] _ (fun _ h => PTerm.noConfusion h)

theorem resolve_compound (e : ETree) (f : String) (args : List PTerm) :
    resolve e (.compound f args) = .compound f args :=
  resolveAux_nonvar e [] _ (fun _ h => PTerm.noConfusion h)

/-- The variable-chain relation of an environment: `Chases e t r` holds
when `r` is reachable from `t` by following bindings of variables (each
intermediate step is a bound variable, so a non-variable can only occur
as the final point of a chain, and a chain visits the first non-variable
it reaches last). -/
inductive Chases (e : ETree) : PTerm → PTerm → Prop where
  | refl (t : PTerm) : Chases e t t
  | step {v : Int} {u r : PTerm} (hl : lookup e v = some u)
      (h : Chases e u r) : Chases e (.var v) r

theorem Chases.trans {e : ETree} {a b c : PTerm}
    (h1 : Chases e a b) (h2 : Chases e b c) : Chases e a c := by
  induction h1 with
  | refl t => exact h2
  | step hl h ih => exact .step hl (ih h2)

theorem Chases.snoc {e : ETree} {a : PTerm} {v : Int} {u : PTerm}
    (h : Chases e a (.var v)) (hl : lookup e v = some u) : Chases e a u :=
  h.trans (.step hl (.refl u))

theorem resolveAux_spec (e : ETree) : ∀ (stop : List Int) (t : PTerm),
    (∀ s ∈ stop, ∃ u, lookup e s = some u ∧ Chases e u t) →
    Chases e t (resolveAux e stop t) ∧
    (∀ v, resolveAux e stop t = .var v →
      lookup e v = none ∨
      ∃ u, lookup e v = some u ∧ Chases e u (.var v)) := by
  refine resolveAux.induct e
    (fun stop t =>
      (∀ s ∈ stop, ∃ u, lookup e s = some u ∧ Chases e u t) →
      Chases e t (resolveAux e stop t) ∧
      (∀ v, resolveAux e stop t = .var v →
        lookup e v = none ∨
        ∃ u, lookup e v = some u ∧ Chases e u (.var v)))
    ?_ ?_ ?_ ?_
  · intro stop v hmem hstop
    rw [resolveAux_var_mem e stop v hmem]
    refine ⟨.refl _, ?_⟩
    intro w hw
    injection hw with hvw
    subst hvw
    exact Or.inr (hstop v hmem)
  · intro stop v hmem hl _
    rw [resolveAux_var_none e stop v hmem hl]
    refine ⟨.refl _, ?_⟩
    intro w hw
    injection hw with hvw
    subst hvw
    exact Or.inl hl
  · intro stop v hmem ref hl ih hstop
    rw [resolveAux_var_some e stop v ref hmem hl]
    have hstop' : ∀ s ∈ stop ++ [v], ∃ u, lookup e s = some u ∧ Chases e u ref := by
      intro s hs
      rcases List.mem_append.mp hs with hs | hs
      · obtain ⟨u, hu, hc⟩ := hstop s hs
        exact ⟨u, hu, hc.snoc hl⟩
      · have : s = v := by simpa using hs
        subst this
        exact ⟨ref, hl, .refl ref⟩
    obtain ⟨hc, hterm⟩ := ih hstop'
    exact ⟨.step hl hc, hterm⟩
  · intro stop t hnv _
    rw [resolveAux_nonvar e stop t hnv]
    exact ⟨.refl _, fun v hv => absurd hv (by intro h; exact hnv v h)⟩

/-- C9.  Totality of `Resolve`: the embedding `resolve` is a total
function on every environment—including cyclic ones—because each loop
iteration adds a fresh key of the finite environment to the chain of
seen variables (this is the termination measure of `resolveAux`).  Its
result is reached from the input by chasing the variable chain (so a
non-variable result is the first non-variable on the chain, since the
chain only steps through variables), and when the result is a variable
it is terminal: either it is free (no binding) or its binding chases
back to itself, i.e. it was already seen along the chain. -/
theorem C9_resolve_total (e : ETree) (t : PTerm) :
    Chases e t (resolve e t) ∧
    (∀ v, resolve e t = .var v →
      lookup e v = none ∨
      ∃ u, lookup e v = some u ∧ Chases e u (.var v)) :=
  resolveAux_spec e [] t (by simp)

theorem resolve_var_of_lookup_some (e : ETree) (v : Int) (ref : PTerm)
    (h : lookup e v = some ref) :
    resolve e (.var v) = resolveAux e [v] ref :=
  resolveAux_var_some e [] v ref (by simp) h

/-- Witness for C9 on a concrete cyclic environment
(`2 ↦ var 3, 3 ↦ var 2`): `resolve` terminates and returns the seen
variable `2`, whose binding chases back to itself. -/
theorem C9_resolve_total_witness :
    resolve (bind (bind .nil 2 (.var 3)) 3 (.var 2)) (.var 2) = .var 2 ∧
    (lookup (bind (bind .nil 2 (.var 3)) 3 (.var 2)) 2 = none ∨
      ∃ u, lookup (bind (bind .nil 2 (.var 3)) 3 (.var 2)) 2 = some u ∧
        Chases (bind (bind .nil 2 (.var 3)) 3 (.var 2)) u (.var 2)) := by
  have hres : resolve (bind (bind .nil 2 (.var 3)) 3 (.var 2)) (.var 2) = .var 2 := by
    have h2 : lookup (bind (bind .nil 2 (.var 3)) 3 (.var 2)) 2 = some (.var 3) := rfl
    have h3 : lookup (bind (bind .nil 2 (.var 3)) 3 (.var 2)) 3 = some (.var 2) := rfl
    rw [resolve, resolveAux_var_some _ _ _ _ (by decide) h2,
      resolveAux_var_some _ _ _ _ (by decide) h3,
      resolveAux_var_mem _ _ _ (by decide)]
  exact ⟨hres, (C9_resolve_total (bind (bind .nil 2 (.var 3)) 3 (.var 2)) (.var 2)).2 2 hres⟩

/-! ## Unification and the occurs check (src/unnamed/part_002) -/

/-- Short-circuit disjunction over a list, threading the `Option` fuel
failure: the argument loop of `contains` (`for i := 0; i < t.Arity();
i++ \{ if contains(...) \{ return true \} \}`). -/
def containsAny (rec : PTerm → Option Bool) : List PTerm → Option Bool
  | [] => some false
  | a :: as =>
    match rec a with
    | none => none
    | some true => some true
    | some false => containsAny rec as

/-- Model of `contains` (src/unnamed/part_002): does `t` transitively
contain `s`, following variable bindings of `e`?  The Go function can
recurse forever on a cyclic environment (possible because the occurs
check is optional), so the model takes fuel and returns `none` when the
fuel runs out. -/
def containsF (e : ETree) : Nat → PTerm → PTerm → Option Bool
  | 0, _, _ => none
  | fuel + 1, t, s =>
    match t with
    | .var v =>
      if goEq (.var v) s then some true
      else
        match lookup e v with
        | none => some false
        | some ref => containsF e fuel ref s
    | .compound f args =>
      (match s with
       | .atom a =>
         if f = a then some true
         else containsAny (fun u => containsF e fuel u s) args
       | _ => containsAny (fun u => containsF e fuel u s) args)
    | t => some (goEq t s)

/-- Sequential unification of resolved argument pairs, threading the
environment through the loop of `Env.unify`'s compound case and stopping
at the first failure. -/
def unifyArgs (rec : ETree → PTerm → PTerm → Option (ETree × Bool)) :
    ETree → List (PTerm × PTerm) → Option (ETree × Bool)
  | e, [] => some (e, true)
  | e, (x, y) :: rest =>
    match rec e x y with
    | none => none
    | some (e', false) => some (e', false)
    | some (e', true) => unifyArgs rec e' rest

/-- Model of `Env.unify` (src/unnamed/part_002): resolve both sides,
then dispatch on the shapes.  `some (e, ok)` models the Go return
`(*Env, bool)`; `none` is fuel exhaustion (the Go function can diverge
on environments made cyclic by earlier occur-check-free bindings).
`Float` is omitted from the term model, so its case is absent; the
`Integer` case and the final interface-equality case are kept as in the
source. -/
def unifyF (e : ETree) : Nat → PTerm → PTerm → Bool → Option (ETree × Bool)
  | 0, _, _, _ => none
  | fuel + 1, x, y, occursCheck =>
    let x' := resolve e x
    let y' := resolve e y
    match x' with
    | .var v =>
      if goEq x' y' then some (e, true)
      else if occursCheck then
        match containsF e fuel y' x' with
        | none => none
        | some true => some (e, false)
        | some false => some (bind e v y', true)
      else some (bind e v y', true)
    | .compound f xs =>
      match y' with
      | .var _ => unifyF e fuel y' x' occursCheck
      | .compound g ys =>
        if f ≠ g then some (e, false)
        else if xs.length ≠ ys.length then some (e, false)
        else unifyArgs (fun e' a b => unifyF e' fuel a b occursCheck) e (xs.zip ys)
      | _ => some (e, false)
    | _ =>
      match y' with
      | .var _ => unifyF e fuel y' x' occursCheck
      | .int m =>
        match x' with
        | .int n => some (e, decide (m = n))
        | _ => some (e, false)
      | _ => some (e, goEq x' y')

/-- C2 counterexample: the claim's general clause says unification with
occurs check of a variable against **any** term that transitively
contains that variable fails; the term `X` itself transitively contains
`X` (the source's `contains(X, X, env)` returns `true`), yet
`unify(X, X, true)` succeeds (the `x == y` case fires before the occurs
check), so the clause fails at the concrete input `X = _2`, `t = X`. -/
theorem C2_counterexample :
    containsF ETree.nil 1 (.var 2) (.var 2) = some true ∧
    unifyF ETree.nil 1 (.var 2) (.var 2) true = some (ETree.nil, true) := by
  have hx : resolve ETree.nil (.var 2) = .var 2 :=
    resolve_var_of_lookup_none _ _ rfl
  refine ⟨rfl, ?_⟩
  show unifyF ETree.nil (0 + 1) (.var 2) (.var 2) true = some (ETree.nil, true)
  simp only [unifyF, hx]
  rfl

/-- C2 (amended).  With the occurs check enabled, unifying `x` with a
term `y` that resolves to something other than the variable `x` resolves
to, and whose occurs-check traversal (`contains`) reports that it
transitively contains that variable, fails with `(e, false)`—the
environment is returned unchanged, so nothing is bound.  Without the
occurs check the same unification succeeds and binds the variable to the
resolved `y` (in particular `unify(X, f(X), true)` fails while
`unify(X, f(X), false)` binds `X` to `f(X)`, see the witness). -/
theorem C2_occurs_check_amended :
    (∀ (e : ETree) (x y : PTerm) (v : Int) (fuel : Nat),
      resolve e x = .var v →
      goEq (.var v) (resolve e y) = false →
      containsF e fuel (resolve e y) (.var v) = some true →
      unifyF e (fuel + 1) x y true = some (e, false)) ∧
    (∀ (e : ETree) (x y : PTerm) (v : Int) (fuel : Nat),
      resolve e x = .var v →
      goEq (.var v) (resolve e y) = false →
      unifyF e (fuel + 1) x y false = some (bind e v (resolve e y), true)) := by
  constructor
  · intro e x y v fuel hx hne hcont
    simp only [unifyF, hx, hne, hcont]
    simp
  · intro e x y v fuel hx hne
    simp only [unifyF, hx, hne]
    simp

/-- Witness for C2's amended theorem at the claim's concrete instance
(`X = _2` fresh, `f(X)`): with the occurs check, unification fails and
binds nothing; without it, it succeeds and `X` looks up to `f(X)` in the
returned environment. -/
theorem C2_occurs_check_amended_witness :
    unifyF ETree.nil 3 (.var 2) (.compound "f" [.var 2]) true
      = some (ETree.nil, false) ∧
    unifyF ETree.nil 1 (.var 2) (.compound "f" [.var 2]) false
      = some (bind ETree.nil 2 (.compound "f" [.var 2]), true) ∧
    lookup (bind ETree.nil 2 (.compound "f" [.var 2])) 2
      = some (.compound "f" [.var 2]) := by
  have hx : resolve ETree.nil (.var 2) = .var 2 :=
    resolve_var_of_lookup_none _ _ rfl
  have hy : resolve ETree.nil (.compound "f" [.var 2]) = .compound "f" [.var 2] :=
    resolve_compound _ _ _
  refine ⟨?_, ?_, rfl⟩
  · exact C2_occurs_check_amended.1 ETree.nil (.var 2) (.compound "f" [.var 2]) 2 2
      hx (by rw [hy]; rfl) (by rw [hy]; rfl)
  · have h2 := C2_occurs_check_amended.2 ETree.nil (.var 2) (.compound "f" [.var 2]) 2 0
      hx (by rw [hy]; rfl)
    rw [hy] at h2
    exact h2

/-! ## Dicts (src/engine/compound_test.go, second document: `dict.go`) -/

/-- Errors returned by `NewDict`/`processArgs`: `errInvalidDict`
(`"invalid dict"`), `errKeyExpected` (`"key expected"`), and
`duplicateKeyError` (`"duplicate key: <k>"`, carrying the key). -/
inductive DictError where
  | invalidDict
  | keyExpected
  | duplicateKey (k : String)
deriving Repr

/-- Association lookup on a key/value list; this models both the Go map
`kv[key]` accesses of `processArgs` (whose keys are unique) and the
linear scan the claim compares `dict.Value` against. -/
def kvLookup (k : String) : List (String × PTerm) → Option PTerm
  | [] => none
  | (k', v) :: rest => if k = k' then some v else kvLookup k rest

/-- Flattening of a key/value list into the argument array layout of a
dict compound: `[k1, v1, k2, v2, ...]`. -/
def flatKV : List (String × PTerm) → List PTerm
  | [] => []
  | (k, v) :: rest => .atom k :: v :: flatKV rest

/-- Flattening of a list of (not yet validated) key/value term pairs into
a `processArgs` input vector. -/
def flatPairs : List (PTerm × PTerm) → List PTerm
  | [] => []
  | (k, v) :: rest => k :: v :: flatPairs rest

/-- The pair-scanning loop of `processArgs`: check each key is an atom,
reject a key already recorded, and record the pair.  (The Go map is
modelled by an insertion-ordered association list; the keys get sorted
afterwards, which makes the iteration order of the Go map immaterial.)
The singleton case is unreachable at the call site because `rest` always
has even length there (the arity check has passed). -/
def buildKV : List PTerm → List (String × PTerm) → Except DictError (List (String × PTerm))
  | [], kv => .ok kv
  | k :: v :: rest, kv =>
    match k with
    | .atom a =>
      if (kvLookup a kv).isSome then .error (.duplicateKey a)
      else buildKV rest (kv ++ [(a, v)])
    | _ => .error .keyExpected
  | [_], kv => .ok kv

/-- Model of `processArgs` (src/engine/compound_test.go): reject an empty
or even-length argument vector, validate the key/value pairs, then emit
`tag` followed by the pairs with keys sorted ascending.  Go collects the
map's keys and sorts them with `sort.Slice(keys, keys[i] < keys[j])`;
since the keys are distinct, sorting the insertion-ordered keys yields
the same list. -/
def processArgs (args : List PTerm) : Except DictError (List PTerm) :=
  if args.length = 0 ∨ args.length % 2 = 0 then .error .invalidDict
  else
    match args with
    | [] => .error .invalidDict
    | tag :: rest =>
      match buildKV rest [] with
      | .error err => .error err
      | .ok kv =>
        let keys := List.insertionSort (fun a b : String => a ≤ b) (kv.map Prod.fst)
        .ok (tag :: keys.flatMap (fun k => [.atom k, (kvLookup k kv).getD (.atom "")]))

/-- Bounds of Go's `(lo + hi) / 2` (truncating division) for a
non-negative, non-empty window. -/
theorem tdiv2_bounds (lo hi : Int) (h0 : 0 ≤ lo) (h : lo ≤ hi) :
    lo ≤ Int.tdiv (lo + hi) 2 ∧ Int.tdiv (lo + hi) 2 ≤ hi := by
  rw [Int.tdiv_eq_ediv (by omega) (by omega)]
  omega

/-- Model of the loop of `dict.Value` (src/engine/compound_test.go):
binary search over the pair indices; pair `mid`'s key sits at argument
index `1 + 2*mid` of the compound `[tag, k1, v1, ...]`.  Go's
`d.Arg(i).(Atom)` type assertion panics on a non-atom; that case, which
is unreachable on a well-formed dict, returns `none` here. -/
def dictValueAux (args : List PTerm) (key : String) (lo : Nat) (hi : Int) : Option PTerm :=
  if h : (lo : Int) ≤ hi then
    let mid : Int := Int.tdiv ((lo : Int) + hi) 2
    let i : Nat := (1 + 2 * mid).toNat
    match args.get? i with
    | some (.atom k) =>
      if k = key then args.get? (i + 1)
      else if k < key then dictValueAux args key (mid + 1).toNat hi
      else dictValueAux args key lo (mid - 1)
    | _ => none
  else none
termination_by (hi + 1 - lo).toNat
decreasing_by
  all_goals
    have hb := tdiv2_bounds (lo : Int) hi (by omega) h
    omega

/-- Model of `dict.Value` (src/engine/compound_test.go): `n` pairs, the
search window starts as `[0, n-1]`. -/
def dictValue (args : List PTerm) (key : String) : Option PTerm :=
  let n : Int := Int.tdiv ((args.length : Int) - 1) 2
  dictValueAux args key 0 (n - 1)

/-- Strict key order on string-keyed binding pairs (the dict invariant:
keys strictly sorted, hence unique). -/
def kLT (a b : String × PTerm) : Prop := a.1 < b.1

instance : DecidableRel kLT := fun a b => by
  unfold kLT; infer_instance

theorem flatKV_get_even (kv : List (String × PTerm)) (m : Nat) :
    (flatKV kv).get? (2 * m) = (kv.get? m).map (fun p => PTerm.atom p.1) := by
  induction kv generalizing m with
  | nil => simp [flatKV]
  | cons p rest ih =>
    obtain ⟨k, v⟩ := p
    cases m with
    | zero => simp [flatKV]
    | succ m =>
      have : 2 * (m + 1) = (2 * m + 1) + 1 := by omega
      rw [this]
      simp only [flatKV, List.get?_cons_succ]
      exact ih m

theorem flatKV_get_odd (kv : List (String × PTerm)) (m : Nat) :
    (flatKV kv).get? (2 * m + 1) = (kv.get? m).map Prod.snd := by
  induction kv generalizing m with
  | nil => simp [flatKV]
  | cons p rest ih =>
    obtain ⟨k, v⟩ := p
    cases m with
    | zero => simp [flatKV]
    | succ m =>
      have : 2 * (m + 1) + 1 = (2 * m + 1) + 1 + 1 := by omega
      rw [this]
      simp only [flatKV, List.get?_cons_succ]
      exact ih m

theorem pairwise_get_lt {kv : List (String × PTerm)}
    (h : List.Pairwise kLT kv) {i j : Nat} {a b : String × PTerm}
    (hij : i < j) (ha : kv.get? i = some a) (hb : kv.get? j = some b) :
    a.1 < b.1 := by
  obtain ⟨hi, hgi⟩ := List.get?_eq_some.mp ha
  obtain ⟨hj, hgj⟩ := List.get?_eq_some.mp hb
  have h2 := (List.pairwise_iff_get.mp h) ⟨i, hi⟩ ⟨j, hj⟩ (by simpa using hij)
  rw [hgi, hgj] at h2
  exact h2

theorem kvLookup_none_of_all_ne (key : String) (kv : List (String × PTerm))
    (h : ∀ p ∈ kv, p.1 ≠ key) : kvLookup key kv = none := by
  induction kv with
  | nil => rfl
  | cons p rest ih =>
    obtain ⟨k, v⟩ := p
    have : key ≠ k := fun he => h (k, v) (by simp) (by simp [he])
    simp only [kvLookup, if_neg this]
    exact ih fun p hp => h p (by simp [hp])

theorem kvLookup_of_get {kv : List (String × PTerm)}
    (h : List.Pairwise kLT kv) {m : Nat} {p : String × PTerm}
    (hget : kv.get? m = some p) : kvLookup p.1 kv = some p.2 := by
  induction kv generalizing m with
  | nil => simp at hget
  | cons q rest ih =>
    obtain ⟨k, v⟩ := q
    rw [List.pairwise_cons] at h
    obtain ⟨hq, hrest⟩ := h
    cases m with
    | zero =>
      simp at hget
      subst hget
      simp [kvLookup]
    | succ m =>
      simp only [List.get?_cons_succ] at hget
      have hmem : p ∈ rest := List.get?_mem hget
      have : p.1 ≠ k := by
        have := hq p hmem
        unfold kLT at this
        exact fun he => absurd (he ▸ this) (lt_irrefl _)
      simp only [kvLookup, if_neg this]
      exact ih hrest hget

theorem flatKV_length (kv : List (String × PTerm)) :
    (flatKV kv).length = 2 * kv.length := by
  induction kv with
  | nil => rfl
  | cons p rest ih =>
    obtain ⟨k, v⟩ := p
    simp [flatKV, ih]
    omega

theorem dictValueAux_eq_kvLookup (tag : PTerm) (kv : List (String × PTerm))
    (key : String) (hsorted : List.Pairwise kLT kv) :
    ∀ (n : Nat) (lo : Nat) (hi : Int),
      (hi + 1 - (lo : Int)).toNat ≤ n →
      hi < (kv.length : Int) →
      (∀ (j : Nat) (p : String × PTerm), kv.get? j = some p →
        (j : Int) < (lo : Int) → p.1 < key) →
      (∀ (j : Nat) (p : String × PTerm), kv.get? j = some p →
        hi < (j : Int) → key < p.1) →
      dictValueAux (tag :: flatKV kv) key lo hi = kvLookup key kv := by
  intro n
  induction n with
  | zero =>
    intro lo hi hn hlen hlow hhigh
    have hwin : ¬ ((lo : Int) ≤ hi) := by omega
    rw [dictValueAux, dif_neg hwin]
    symm
    apply kvLookup_none_of_all_ne
    intro p hp
    obtain ⟨j, hj⟩ := List.mem_iff_get?.mp hp
    rcases lt_or_ge (j : Int) (lo : Int) with hc | hc
    · exact ne_of_lt (hlow j p hj hc)
    · exact ne_of_gt (hhigh j p hj (by omega))
  | succ n ih =>
    intro lo hi hn hlen hlow hhigh
    by_cases hwin : (lo : Int) ≤ hi
    · rw [dictValueAux, dif_pos hwin]
      simp only []
      obtain ⟨hmlo, hmhi⟩ := tdiv2_bounds (lo : Int) hi (by omega) hwin
      set mid := Int.tdiv ((lo : Int) + hi) 2 with hmiddef
      have hmid0 : 0 ≤ mid := by omega
      have hmNlt : mid.toNat < kv.length := by omega
      have hpm := List.get?_eq_get (l := kv) hmNlt
      set pm := kv.get ⟨mid.toNat, hmNlt⟩ with hpmdef
      have hidx : (1 + 2 * mid).toNat = 2 * mid.toNat + 1 := by omega
      have hkeyidx : (tag :: flatKV kv).get? ((1 + 2 * mid).toNat)
          = some (.atom pm.1) := by
        rw [hidx, List.get?_cons_succ, flatKV_get_even, hpm]
        rfl
      simp only [hkeyidx]
      by_cases heq : pm.1 = key
      · rw [if_pos heq]
        have hvalidx : (1 + 2 * mid).toNat + 1 = (2 * mid.toNat + 1) + 1 := by omega
        rw [hvalidx, List.get?_cons_succ, flatKV_get_odd, hpm]
        have hfound := kvLookup_of_get hsorted hpm
        rw [← heq, hfound]
        rfl
      · rw [if_neg heq]
        by_cases hlt : pm.1 < key
        · rw [if_pos hlt]
          apply ih
          · omega
          · exact hlen
          · intro j p hj hjlt
            rcases Nat.lt_or_ge j mid.toNat with hc | hc
            · exact lt_trans (pairwise_get_lt hsorted hc hj hpm) hlt
            · have hje : j = mid.toNat := by omega
              subst hje
              have hpe : p = pm := by
                rw [hpm] at hj
                exact (Option.some.inj hj).symm
              rw [hpe]
              exact hlt
          · exact hhigh
        · rw [if_neg hlt]
          have hgt : key < pm.1 := lt_of_le_of_ne (not_lt.mp hlt) (Ne.symm heq)
          apply ih
          · omega
          · omega
          · exact hlow
          · intro j p hj hjgt
            rcases Nat.lt_or_ge mid.toNat j with hc | hc
            · exact lt_trans hgt (pairwise_get_lt hsorted hc hpm hj)
            · have hje : j = mid.toNat := by omega
              subst hje
              have hpe : p = pm := by
                rw [hpm] at hj
                exact (Option.some.inj hj).symm
              rw [hpe]
              exact hgt
    · rw [dictValueAux, dif_neg hwin]
      symm
      apply kvLookup_none_of_all_ne
      intro p hp
      obtain ⟨j, hj⟩ := List.mem_iff_get?.mp hp
      rcases lt_or_ge (j : Int) (lo : Int) with hc | hc
      · exact ne_of_lt (hlow j p hj hc)
      · exact ne_of_gt (hhigh j p hj (by omega))

/-- On a well-formed dict (strictly sorted unique keys), the binary
search of `dict.Value` computes the linear association scan. -/
theorem dictValue_eq_kvLookup (tag : PTerm) (kv : List (String × PTerm))
    (key : String) (hsorted : List.Pairwise kLT kv) :
    dictValue (tag :: flatKV kv) key = kvLookup key kv := by
  unfold dictValue
  simp only []
  have hlen : ((tag :: flatKV kv).length : Int) = 1 + 2 * (kv.length : Int) := by
    simp [flatKV_length]
    omega
  have hn : Int.tdiv (((tag :: flatKV kv).length : Int) - 1) 2 = (kv.length : Int) := by
    rw [hlen]
    rw [show (1 : Int) + 2 * (kv.length : Int) - 1 = 2 * (kv.length : Int) by omega]
    rw [Int.tdiv_eq_ediv (by omega) (by omega)]
    omega
  rw [hn]
  apply dictValueAux_eq_kvLookup tag kv key hsorted (kv.length + 1)
  · omega
  · omega
  · intro j p hj hjlt
    omega
  · intro j p hj hjgt
    have := (List.get?_eq_some.mp hj).1
    omega

theorem kvLookup_some_mem {key : String} {kv : List (String × PTerm)} {v : PTerm}
    (h : kvLookup key kv = some v) : (key, v) ∈ kv := by
  induction kv with
  | nil => simp [kvLookup] at h
  | cons p rest ih =>
    obtain ⟨k, w⟩ := p
    by_cases hk : key = k
    · subst hk
      simp [kvLookup] at h
      simp [h]
    · simp only [kvLookup, if_neg hk] at h
      exact List.mem_cons_of_mem _ (ih h)

theorem mem_kvLookup {key : String} {kv : List (String × PTerm)} {v : PTerm}
    (hsorted : List.Pairwise kLT kv) (h : (key, v) ∈ kv) :
    kvLookup key kv = some v := by
  induction kv with
  | nil => simp at h
  | cons p rest ih =>
    obtain ⟨k, w⟩ := p
    rw [List.pairwise_cons] at hsorted
    obtain ⟨hq, hrest⟩ := hsorted
    rcases List.mem_cons.mp h with h | h
    · rw [← h]
      simp [kvLookup]
    · have hlt : k < key := hq (key, v) h
      have hne : key ≠ k := fun he => absurd (he ▸ hlt) (lt_irrefl _)
      simp only [kvLookup, if_neg hne]
      exact ih hrest h

theorem kvLookup_none_iff {key : String} {kv : List (String × PTerm)} :
    kvLookup key kv = none ↔ key ∉ kv.map Prod.fst := by
  induction kv with
  | nil => simp [kvLookup]
  | cons p rest ih =>
    obtain ⟨k, w⟩ := p
    by_cases hk : key = k
    · subst hk
      simp [kvLookup]
    · simp only [kvLookup, if_neg hk, List.map_cons, List.mem_cons, ih]
      constructor
      · intro h hmem
        rcases hmem with hmem | hmem
        · exact hk hmem
        · exact h hmem
      · intro h hmem
        exact h (Or.inr hmem)

/-- C7.  On every well-formed dict (keys strictly sorted, hence unique,
as `new_dict` constructs them), the `O(log n)` binary search of
`dict.Value` agrees with a linear scan of the dict's key/value argument
pairs: it returns `some v` exactly when the pair `(k, v)` occurs among
the dict's arguments, and `none` exactly when `k` occurs in no pair.
(`some v`/`none` model the Go returns `(v, true)`/`(nil, false)`.) -/
theorem C7_dict_value_agrees_with_linear_scan (tag : PTerm)
    (kv : List (String × PTerm)) (key : String)
    (hsorted : List.Pairwise kLT kv) :
    dictValue (tag :: flatKV kv) key = kvLookup key kv ∧
    (∀ v, dictValue (tag :: flatKV kv) key = some v ↔ (key, v) ∈ kv) ∧
    (dictValue (tag :: flatKV kv) key = none ↔ key ∉ kv.map Prod.fst) := by
  have hmain := dictValue_eq_kvLookup tag kv key hsorted
  refine ⟨hmain, ?_, ?_⟩
  · intro v
    rw [hmain]
    exact ⟨fun h => kvLookup_some_mem h, fun h => mem_kvLookup hsorted h⟩
  · rw [hmain]
    exact kvLookup_none_iff

/-- Witness for C7 on the concrete well-formed dict
`point\x7ba: 1, b: 2\x7d`: the binary search finds `b ↦ 2` and reports a
missing `z`, in agreement with the linear scan. -/
theorem C7_dict_value_agrees_with_linear_scan_witness :
    List.Pairwise kLT [("a", PTerm.int 1), ("b", PTerm.int 2)] ∧
    dictValue (.atom "point" :: flatKV [("a", PTerm.int 1), ("b", PTerm.int 2)]) "b"
      = some (.int 2) ∧
    dictValue (.atom "point" :: flatKV [("a", PTerm.int 1), ("b", PTerm.int 2)]) "z"
      = none := by
  have hs : List.Pairwise kLT [("a", PTerm.int 1), ("b", PTerm.int 2)] := by
    constructor
    · intro p hp
      simp at hp
      rw [hp]
      show ("a" : String) < "b"
      exact (String.lt_iff_toList_lt).mpr (by decide)
    · simp
  have h1 := (C7_dict_value_agrees_with_linear_scan (.atom "point")
    [("a", PTerm.int 1), ("b", PTerm.int 2)] "b" hs).1
  have h2 := (C7_dict_value_agrees_with_linear_scan (.atom "point")
    [("a", PTerm.int 1), ("b", PTerm.int 2)] "z" hs).1
  refine ⟨hs, ?_, ?_⟩
  · rw [h1]
    rfl
  · rw [h2]
    rfl

/-- Outcomes of the dict-access builtins relevant to C10:
`raiseDomainErrorDictKey c` models
`Error(domainError(validDomainDictKey, c, env))`, `failP` models
`Bool(false)`, and `unifyWith v` models `Unify(result, v, cont, env)`
(continuing by unifying the result argument with the extracted value). -/
inductive DictOut where
  | raiseDomainErrorDictKey (culprit : PTerm)
  | failP
  | unifyWith (v : PTerm)
deriving Repr

/-- Model of the `Atom` branch of `Op3` (src/engine/compound_test.go):
`extracted, ok := dict.Value(function); if !ok -> domain error; else
unify the result with the extracted value`. -/
def op3AtomKey (args : List PTerm) (function : String) : DictOut :=
  match dictValue args function with
  | some extracted => .unifyWith extracted
  | none => .raiseDomainErrorDictKey (.atom function)

/-- Model of the `Atom` branch of `GetDict3` (src/engine/compound_test.go):
`if value, ok := dict.Value(keyPath); ok -> unify; return Bool(false)` —
a missing key fails silently instead of raising. -/
def getDict3AtomKey (args : List PTerm) (keyPath : String) : DictOut :=
  match dictValue args keyPath with
  | some value => .unifyWith value
  | none => .failP

/-- C10.  Missing-key behaviour differs between direct dict field access
and the predefined `get` function: on a well-formed dict, for a key
absent from the dict `Op3` (the `d.k` evaluation) raises
`domain_error(dict_key, k)` while `GetDict3` fails silently; for a key
present with value `v` both unify the result with the same `v`. -/
theorem C10_dict_missing_key_behaviour (tag : PTerm)
    (kv : List (String × PTerm)) (k : String)
    (hsorted : List.Pairwise kLT kv) :
    (k ∉ kv.map Prod.fst →
      op3AtomKey (tag :: flatKV kv) k = .raiseDomainErrorDictKey (.atom k) ∧
      getDict3AtomKey (tag :: flatKV kv) k = .failP) ∧
    (∀ v, (k, v) ∈ kv →
      op3AtomKey (tag :: flatKV kv) k = .unifyWith v ∧
      getDict3AtomKey (tag :: flatKV kv) k = .unifyWith v) := by
  have hmain := dictValue_eq_kvLookup tag kv k hsorted
  constructor
  · intro habs
    have hnone : dictValue (tag :: flatKV kv) k = none := by
      rw [hmain]
      exact kvLookup_none_iff.mpr habs
    unfold op3AtomKey getDict3AtomKey
    rw [hnone]
    exact ⟨rfl, rfl⟩
  · intro v hmem
    have hsome : dictValue (tag :: flatKV kv) k = some v := by
      rw [hmain]
      exact mem_kvLookup hsorted hmem
    unfold op3AtomKey getDict3AtomKey
    rw [hsome]
    exact ⟨rfl, rfl⟩

/-- Witness for C10 on the dict `point\x7ba: 1, b: 2\x7d`: key `z` is
absent (field access raises the domain error, `get` fails silently), key
`a` is present (both produce `1`). -/
theorem C10_dict_missing_key_behaviour_witness :
    (op3AtomKey (.atom "point" :: flatKV [("a", PTerm.int 1), ("b", PTerm.int 2)]) "z"
        = .raiseDomainErrorDictKey (.atom "z") ∧
      getDict3AtomKey (.atom "point" :: flatKV [("a", PTerm.int 1), ("b", PTerm.int 2)]) "z"
        = .failP) ∧
    (op3AtomKey (.atom "point" :: flatKV [("a", PTerm.int 1), ("b", PTerm.int 2)]) "a"
        = .unifyWith (.int 1) ∧
      getDict3AtomKey (.atom "point" :: flatKV [("a", PTerm.int 1), ("b", PTerm.int 2)]) "a"
        = .unifyWith (.int 1)) := by
  have hs : List.Pairwise kLT [("a", PTerm.int 1), ("b", PTerm.int 2)] := by
    constructor
    · intro p hp
      simp at hp
      rw [hp]
      show ("a" : String) < "b"
      exact (String.lt_iff_toList_lt).mpr (by decide)
    · simp
  constructor
  · exact (C10_dict_missing_key_behaviour (.atom "point")
      [("a", PTerm.int 1), ("b", PTerm.int 2)] "z" hs).1
      (by decide)
  · exact (C10_dict_missing_key_behaviour (.atom "point")
      [("a", PTerm.int 1), ("b", PTerm.int 2)] "a" hs).2 (.int 1)
      (List.Mem.head _)

/-- Name of an atom term (used to state C6; non-atoms are excluded by
hypothesis wherever this appears). -/
def atomName : PTerm → String
  | .atom a => a
  | _ => ""

theorem flatPairs_length (pairs : List (PTerm × PTerm)) :
    (flatPairs pairs).length = 2 * pairs.length := by
  induction pairs with
  | nil => rfl
  | cons p rest ih =>
    obtain ⟨k, v⟩ := p
    simp [flatPairs, ih]
    omega

theorem kvLookup_isSome_iff {a : String} {kv : List (String × PTerm)} :
    (kvLookup a kv).isSome = true ↔ a ∈ kv.map Prod.fst := by
  rw [Option.isSome_iff_ne_none]
  constructor
  · intro h
    by_contra habs
    exact h (kvLookup_none_iff.mpr habs)
  · intro h hnone
    exact kvLookup_none_iff.mp hnone h

theorem buildKV_ok (pairs : List (PTerm × PTerm)) :
    ∀ kv0 : List (String × PTerm),
      (∀ p ∈ pairs, ∃ a, p.1 = PTerm.atom a) →
      (kv0.map Prod.fst ++ pairs.map (fun p => atomName p.1)).Nodup →
      buildKV (flatPairs pairs) kv0 =
        .ok (kv0 ++ pairs.map (fun p => (atomName p.1, p.2))) := by
  induction pairs with
  | nil =>
    intro kv0 _ _
    simp [flatPairs, buildKV]
  | cons p rest ih =>
    intro kv0 hAtoms hNodup
    obtain ⟨k, v⟩ := p
    obtain ⟨a, ha⟩ := hAtoms (k, v) (by simp)
    simp only at ha
    subst ha
    have hnotin : a ∉ kv0.map Prod.fst := by
      intro hmem
      rw [List.nodup_append] at hNodup
      exact hNodup.2.2 hmem (by simp [atomName])
    have hlook : (kvLookup a kv0).isSome = false := by
      rw [Bool.eq_false_iff]
      intro h
      exact hnotin (kvLookup_isSome_iff.mp h)
    simp only [flatPairs, buildKV]
    rw [if_neg (by simp [hlook])]
    rw [ih (kv0 ++ [(a, v)]) (fun p hp => hAtoms p (by simp [hp]))
      (by simpa [atomName, List.append_assoc] using hNodup)]
    simp [atomName]
theorem buildKV_keyExpected (pre : List (PTerm × PTerm)) :
    ∀ (kv0 : List (String × PTerm)) (k v : PTerm) (post : List (PTerm × PTerm)),
      (∀ p ∈ pre, ∃ a, p.1 = PTerm.atom a) →
      (kv0.map Prod.fst ++ pre.map (fun p => atomName p.1)).Nodup →
      (∀ a, k ≠ PTerm.atom a) →
      buildKV (flatPairs (pre ++ (k, v) :: post)) kv0 = .error .keyExpected := by
  induction pre with
  | nil =>
    intro kv0 k v post _ _ hk
    cases k with
    | atom a => exact absurd rfl (hk a)
    | var w => simp [flatPairs, buildKV]
    | int n => simp [flatPairs, buildKV]
    | compound f args => simp [flatPairs, buildKV]
  | cons p rest ih =>
    intro kv0 k v post hAtoms hNodup hk
    obtain ⟨k0, v0⟩ := p
    obtain ⟨a, ha⟩ := hAtoms (k0, v0) (by simp)
    simp only at ha
    subst ha
    have hnotin : a ∉ kv0.map Prod.fst := by
      intro hmem
      rw [List.nodup_append] at hNodup
      exact hNodup.2.2 hmem (by simp [atomName])
    have hlook : (kvLookup a kv0).isSome = false := by
      rw [Bool.eq_false_iff]
      intro h
      exact hnotin (kvLookup_isSome_iff.mp h)
    simp only [List.cons_append, flatPairs, buildKV]
    rw [if_neg (by simp [hlook])]
    exact ih (kv0 ++ [(a, v0)]) k v post (fun p hp => hAtoms p (by simp [hp]))
      (by simpa [atomName, List.append_assoc] using hNodup) hk

theorem buildKV_duplicateKey (pre : List (PTerm × PTerm)) :
    ∀ (kv0 : List (String × PTerm)) (a : String) (v : PTerm)
      (post : List (PTerm × PTerm)),
      (∀ p ∈ pre, ∃ b, p.1 = PTerm.atom b) →
      (kv0.map Prod.fst ++ pre.map (fun p => atomName p.1)).Nodup →
      a ∈ kv0.map Prod.fst ++ pre.map (fun p => atomName p.1) →
      buildKV (flatPairs (pre ++ (.atom a, v) :: post)) kv0
        = .error (.duplicateKey a) := by
  induction pre with
  | nil =>
    intro kv0 a v post _ _ hdup
    simp only [List.map_nil, List.append_nil] at hdup
    have hlook : (kvLookup a kv0).isSome = true := kvLookup_isSome_iff.mpr (by simpa using hdup)
    simp only [List.nil_append, flatPairs, buildKV]
    rw [if_pos (by simp [hlook])]
  | cons p rest ih =>
    intro kv0 a v post hAtoms hNodup hdup
    obtain ⟨k0, v0⟩ := p
    obtain ⟨b, hb⟩ := hAtoms (k0, v0) (by simp)
    simp only at hb
    subst hb
    have hnotin : b ∉ kv0.map Prod.fst := by
      intro hmem
      rw [List.nodup_append] at hNodup
      exact hNodup.2.2 hmem (by simp [atomName])
    have hlook : (kvLookup b kv0).isSome = false := by
      rw [Bool.eq_false_iff]
      intro h
      exact hnotin (kvLookup_isSome_iff.mp h)
    simp only [List.cons_append, flatPairs, buildKV]
    rw [if_neg (by simp [hlook])]
    apply ih (kv0 ++ [(b, v0)]) a v post (fun p hp => hAtoms p (by simp [hp]))
      (by simpa [atomName, List.append_assoc] using hNodup)
    have : kv0.map Prod.fst ++ atomName (PTerm.atom b) :: rest.map (fun p => atomName p.1)
        = (kv0 ++ [(b, v0)]).map Prod.fst ++ rest.map (fun p => atomName p.1) := by
      simp [atomName]
    rw [← this]
    simpa [atomName] using hdup

theorem flatKV_map_keys (ks : List String) (g : String → PTerm) :
    flatKV (ks.map (fun k => (k, g k))) = ks.flatMap (fun k => [.atom k, g k]) := by
  induction ks with
  | nil => rfl
  | cons k rest ih => simp [flatKV, ih]

theorem pairwise_lt_of_le_nodup (l : List String)
    (hs : List.Pairwise (fun a b : String => a ≤ b) l) (hn : l.Nodup) :
    List.Pairwise (fun a b : String => a < b) l :=
  (hs.and hn).imp fun h => lt_of_le_of_ne h.1 h.2

theorem processArgs_parity (tag : PTerm) (pairs : List (PTerm × PTerm)) :
    ¬((tag :: flatPairs pairs).length = 0 ∨
      (tag :: flatPairs pairs).length % 2 = 0) := by
  simp only [List.length_cons, flatPairs_length]
  omega

/-- C6.  `NewDict`/`processArgs` validation: an empty or even-length
argument vector is rejected with `invalid dict`; a (properly
paired) vector whose first offending pair has a non-atom key is rejected
with `key expected`; one whose first offending pair repeats an earlier
key `k` is rejected with `duplicate key: k`; and every valid vector
(all keys atoms, no duplicates) succeeds with a dict whose keys are
atoms, strictly sorted ascending (hence unique), and a permutation of
the input keys—regardless of the input key order. -/
theorem C6_new_dict_validation :
    (∀ args : List PTerm, args.length = 0 ∨ args.length % 2 = 0 →
      processArgs args = .error .invalidDict) ∧
    (∀ (tag : PTerm) (pre : List (PTerm × PTerm)) (k v : PTerm)
        (post : List (PTerm × PTerm)),
      (∀ p ∈ pre, ∃ b, p.1 = PTerm.atom b) →
      (pre.map (fun p => atomName p.1)).Nodup →
      (∀ a, k ≠ PTerm.atom a) →
      processArgs (tag :: flatPairs (pre ++ (k, v) :: post))
        = .error .keyExpected) ∧
    (∀ (tag : PTerm) (pre : List (PTerm × PTerm)) (a : String) (v : PTerm)
        (post : List (PTerm × PTerm)),
      (∀ p ∈ pre, ∃ b, p.1 = PTerm.atom b) →
      (pre.map (fun p => atomName p.1)).Nodup →
      a ∈ pre.map (fun p => atomName p.1) →
      processArgs (tag :: flatPairs (pre ++ (.atom a, v) :: post))
        = .error (.duplicateKey a)) ∧
    (∀ (tag : PTerm) (pairs : List (PTerm × PTerm)),
      (∀ p ∈ pairs, ∃ b, p.1 = PTerm.atom b) →
      (pairs.map (fun p => atomName p.1)).Nodup →
      ∃ kv : List (String × PTerm),
        processArgs (tag :: flatPairs pairs) = .ok (tag :: flatKV kv) ∧
        List.Pairwise kLT kv ∧
        (kv.map Prod.fst).Perm (pairs.map (fun p => atomName p.1))) := by
  refine ⟨?_, ?_, ?_, ?_⟩
  · intro args h
    unfold processArgs
    rw [if_pos h]
  · intro tag pre k v post hAtoms hNodup hk
    unfold processArgs
    rw [if_neg (processArgs_parity tag (pre ++ (k, v) :: post))]
    simp only []
    rw [buildKV_keyExpected pre [] k v post hAtoms (by simpa using hNodup) hk]
  · intro tag pre a v post hAtoms hNodup hdup
    unfold processArgs
    rw [if_neg (processArgs_parity tag (pre ++ (.atom a, v) :: post))]
    simp only []
    rw [buildKV_duplicateKey pre [] a v post hAtoms (by simpa using hNodup)
      (by simpa using hdup)]
  · intro tag pairs hAtoms hNodup
    have hbuild := buildKV_ok pairs [] hAtoms (by simpa using hNodup)
    rw [List.nil_append] at hbuild
    refine ⟨(List.insertionSort (fun a b : String => a ≤ b)
        ((pairs.map (fun p => (atomName p.1, p.2))).map Prod.fst)).map
        (fun k => (k, (kvLookup k (pairs.map (fun p => (atomName p.1, p.2)))).getD (.atom ""))),
      ?_, ?_, ?_⟩
    · unfold processArgs
      rw [if_neg (processArgs_parity tag pairs)]
      simp only []
      rw [hbuild]
      rw [flatKV_map_keys]
    · rw [List.pairwise_map]
      have hnodupkeys : ((pairs.map (fun p => (atomName p.1, p.2))).map Prod.fst).Nodup := by
        simpa [List.map_map, Function.comp] using hNodup
      have hperm := List.perm_insertionSort (fun a b : String => a ≤ b)
        ((pairs.map (fun p => (atomName p.1, p.2))).map Prod.fst)
      have hsorted := List.sorted_insertionSort (fun a b : String => a ≤ b)
        ((pairs.map (fun p => (atomName p.1, p.2))).map Prod.fst)
      have hkeysnodup := hperm.nodup_iff.mpr hnodupkeys
      exact pairwise_lt_of_le_nodup _ hsorted hkeysnodup
    · have hperm := List.perm_insertionSort (fun a b : String => a ≤ b)
        ((pairs.map (fun p => (atomName p.1, p.2))).map Prod.fst)
      rw [show ∀ (ks : List String) (g : String → PTerm),
          (ks.map (fun k => (k, g k))).map Prod.fst = ks from
          fun ks g => by
            induction ks with
            | nil => rfl
            | cons k rest ih => simp only [List.map_cons] at ih ⊢; rw [ih]]
      refine hperm.trans ?_
      rw [show (pairs.map (fun p => (atomName p.1, p.2))).map Prod.fst
          = pairs.map (fun p => atomName p.1) from by simp [List.map_map]]

/-- Witness for C6 at concrete inputs: the empty vector is an invalid
dict; `[point, b, 2, a, 1]` (keys out of order) builds a dict whose keys
come out strictly sorted as `a, b`. -/
theorem C6_new_dict_validation_witness :
    processArgs [] = .error .invalidDict ∧
    (∃ kv : List (String × PTerm),
      processArgs [.atom "point", .atom "b", .int 2, .atom "a", .int 1]
        = .ok (.atom "point" :: flatKV kv) ∧
      List.Pairwise kLT kv ∧
      (kv.map Prod.fst).Perm ["b", "a"]) := by
  constructor
  · exact C6_new_dict_validation.1 [] (Or.inl rfl)
  · have h := C6_new_dict_validation.2.2.2 (.atom "point")
      [(.atom "b", .int 2), (.atom "a", .int 1)]
      (by intro p hp; simp at hp; rcases hp with hp | hp <;> rw [hp] <;> exact ⟨_, rfl⟩)
      (by simp [atomName])
    simpa [flatPairs, atomName] using h

/-! ## The promise trampoline (src/engine/promise.go) -/

/-- A promise of the resolution driver, with the lazy child sequence
materialized as a list: `final b` models the terminal promises
`Bool(b)` (and a `delayed` promise whose `delayed` field has been set to
nil, which Force then treats identically to `Bool(false)`); `perr c`
models `Error` with an abstract payload; `choice id cs` models a
`delayed` promise (`Delay(ks...)`) whose remaining children are `cs`;
`cutP id parent cs` is such a promise whose `cutParent` field points at
the promise with identity `parent`.  Go compares promise pointers in
`popUntil`; the promises a cut can target (the `Delay` promises built by
`clauses.call`) are modelled with explicit unique identities, and the
shared terminal singletons (`truePromise`, `falsePromise`) have none. -/
inductive Prom where
  | final (ok : Bool)
  | perr (code : Nat)
  | choice (id : Nat) (cs : List Prom)
  | cutP (id : Nat) (parent : Nat) (cs : List Prom)

/-- Identity of a promise, when it has one (pointer identity proxy). -/
def idOf : Prom → Option Nat
  | .final _ => none
  | .perr _ => none
  | .choice i _ => some i
  | .cutP i _ _ => some i

/-- Model of `promiseStack.popUntil` (src/engine/promise.go): pop until
the popped promise *is* the target (inclusive), or the stack empties.
The stack's top is the head of the list. -/
def popUntil (s : List Prom) (target : Nat) : List Prom :=
  match s with
  | [] => []
  | p :: rest => if idOf p = some target then rest else popUntil rest target

/-- Result of one trampoline tick. -/
inductive StepResult where
  | next (stack : List Prom)
  | done (ok : Bool)
  | failed (code : Nat)

/-- Model of one iteration of `Promise.Force` (src/engine/promise.go):
pop a promise; a terminal true returns, a terminal false continues, an
error unwinds (no `catch` promises appear in the modelled fragment, so
it surfaces); a delayed promise first applies its cut (`popUntil` on its
`cutParent`, which is then cleared), then pushes itself (with the
remaining children, cut cleared) and its next child; an exhausted
delayed promise is re-pushed with `delayed = nil`, which the next tick
treats as a terminal false. -/
def forceStep : List Prom → StepResult
  | [] => .done false
  | p :: s =>
    match p with
    | .final true => .done true
    | .final false => .next s
    | .perr c => .failed c
    | .choice _ [] => .next (Prom.final false :: s)
    | .choice i (c :: cs) => .next (c :: Prom.choice i cs :: s)
    | .cutP i parent cs =>
      let s' := popUntil s parent
      match cs with
      | [] => .next (Prom.final false :: s')
      | c :: cs' => .next (c :: Prom.choice i cs' :: s')

/-- Model of the `Force` trampoline loop, fuelled. -/
def forceRun : Nat → List Prom → Option (Bool ⊕ Nat)
  | 0, _ => none
  | n + 1, s =>
    match forceStep s with
    | .done ok => some (.inl ok)
    | .failed c => some (.inr c)
    | .next s' => forceRun n s'

theorem popUntil_spec (above : List Prom) (b : Prom) (below : List Prom)
    (parent : Nat) (hb : idOf b = some parent)
    (habove : ∀ q ∈ above, idOf q ≠ some parent) :
    popUntil (above ++ b :: below) parent = below := by
  induction above with
  | nil =>
    simp only [List.nil_append, popUntil, if_pos hb]
  | cons q rest ih =>
    simp only [List.cons_append, popUntil,
      if_neg (habove q (by simp))]
    exact ih fun q hq => habove q (by simp [hq])

/-- C3.  Cut locality at the driver: `VM.Call` compiles its goal into a
fresh `$call` clause set and runs it through `clauses.call`, which
builds the promise `p = Delay(ks...)` of the clause alternatives and
passes `p` as the `cutParent` of every instruction of the called goal's
bytecode; a `!` inside the goal therefore executes as `cut(p, k)`.  When
the driver ticks that cut, it pops stack entries only down to and
including the barrier `p`: with the stack laid out as the entries pushed
since the barrier (`above`), the barrier `b` itself, and the entries
that existed before the `Call` (`below`), the resulting stack is the
cut's own continuation on top of `below` — every pre-`Call` choice
point survives untouched, and only `above` and the barrier are
discarded. -/
theorem C3_cut_locality (i parent : Nat) (c : Prom) (cs : List Prom)
    (above : List Prom) (b : Prom) (below : List Prom)
    (hb : idOf b = some parent)
    (habove : ∀ q ∈ above, idOf q ≠ some parent) :
    forceStep (Prom.cutP i parent (c :: cs) :: (above ++ b :: below)) =
      .next (c :: Prom.choice i cs :: below) ∧
    popUntil (above ++ b :: below) parent = below := by
  have hpop := popUntil_spec above b below parent hb habove
  constructor
  · simp only [forceStep, hpop]
  · exact hpop

/-- Witness for C3 on a concrete stack: the cut targets barrier `7`;
the choice point `5` pushed inside the call is discarded, the outer
choice point `9` survives, and a full run afterwards still reaches the
outer alternative's success. -/
theorem C3_cut_locality_witness :
    forceStep (Prom.cutP 3 7 [.final false] ::
        ([Prom.choice 5 [.final true]] ++ Prom.choice 7 [] ::
          [Prom.choice 9 [.final true]])) =
      .next (Prom.final false :: Prom.choice 3 [] ::
        [Prom.choice 9 [.final true]]) ∧
    forceRun 9 [Prom.cutP 3 7 [.final false], Prom.choice 5 [.final true],
      Prom.choice 7 [], Prom.choice 9 [.final true]] = some (.inl true) := by
  constructor
  · exact (C3_cut_locality 3 7 (.final false) [] [Prom.choice 5 [.final true]]
      (Prom.choice 7 []) [Prom.choice 9 [.final true]] rfl
      (by intro q hq; rw [List.mem_singleton] at hq; subst hq; decide)).1
  · rfl

/-! ## findall/3 and bagof/3 (src/engine/builtin.go) -/

/-- The `List(answers...)` term builder: a proper list compound, with
the empty list being the atom `[]`. -/
def listTerm : List PTerm → PTerm
  | [] => .atom "[]"
  | t :: ts => .compound "." [t, listTerm ts]

/-- Model of the body of `VM.FindAll` (src/engine/builtin.go): the goal
is abstracted by `answers`, the list of solution instances its
enumeration produced (`env.Simplify(template)` per success, in order);
with them collected, the builtin runs `Unify(instances, List(answers...),
k, env)`: on unification success it continues with `k` in the extended
environment, otherwise the promise is `Bool(false)`.  (`none` from the
fuelled unifier, impossible on the inputs below, also maps to a failed
promise.) -/
def findAllBody (fuel : Nat) (answers : List PTerm) (instances : PTerm)
    (k : ETree → Prom) (e : ETree) : Prom :=
  match unifyF e fuel instances (listTerm answers) false with
  | some (e', true) => k e'
  | some (_, false) => .final false
  | none => .final false

/-- Model of `VM.FindAll`: `Delay` of the single collected computation. -/
def findAllP (fuel : Nat) (answers : List PTerm) (instances : PTerm)
    (k : ETree → Prom) (e : ETree) : Prom :=
  .choice 0 [findAllBody fuel answers instances k e]

/-- The inner loop of `VM.collectionOf` that files one `vars-instance`
answer into the ordered solution groups: the first group whose `vars`
compares equal receives the instance, otherwise a new group is appended. -/
def addAnswer (cmp : PTerm → PTerm → Int) (sols : List (PTerm × List PTerm))
    (vars : PTerm) (inst : PTerm) : List (PTerm × List PTerm) :=
  match sols with
  | [] => [(vars, [inst])]
  | (v, insts) :: rest =>
    if cmp v vars = 0 then (v, insts ++ [inst]) :: rest
    else (v, insts) :: addAnswer cmp rest vars inst

/-- Grouping of the collected `vars-instance` answers of
`VM.collectionOf`, in answer order. -/
def groupAnswers (cmp : PTerm → PTerm → Int)
    (answers : List (PTerm × PTerm)) : List (PTerm × List PTerm) :=
  answers.foldl (fun sols a => addAnswer cmp sols a.1 a.2) []

/-- Model of the promise structure of `VM.collectionOf`
(src/engine/builtin.go, used by both `BagOf` and `SetOf`): an outer
`Delay` of one closure that collects the answers (abstracted by the
`answers` argument), groups them, sorts the groups by the standard order
of their `vars` terms (`cmp`, `sort.Slice` with `compare < 0`), and
returns `Delay(ks...)` with one continuation per group (`mkK`).  With no
solutions there are no groups and the inner promise is `Delay()`. -/
def collectionOfP (cmp : PTerm → PTerm → Int)
    (answers : List (PTerm × PTerm))
    (mkK : PTerm × List PTerm → Prom) : Prom :=
  .choice 1 [.choice 2
    ((@List.insertionSort _ (fun a b => cmp a.1 b.1 < 0)
        (fun _ _ => Int.decLt _ _)
        (groupAnswers cmp answers)).map mkK)]

/-- C4.  `bagof(T, G, L)` with no solutions fails while
`findall(T, G, L)` with no solutions succeeds exactly once with
`L = []`: the bagof promise for an empty answer list forces to `false`
(no error); the findall promise is a single delayed computation that,
for unbound `L`, is exactly one invocation of its continuation in the
environment binding `L` to the empty-list atom (so findall contributes
exactly the solutions of its continuation, once), in which `L` looks up
to `[]`, and forcing it under a trivial continuation yields `true`. -/
theorem C4_bagof_empty_vs_findall_empty :
    (∀ (cmp : PTerm → PTerm → Int) (mkK : PTerm × List PTerm → Prom),
      forceRun 6 [collectionOfP cmp [] mkK] = some (.inl false)) ∧
    (∀ (fuel : Nat) (L : Int) (k : ETree → Prom) (e : ETree),
      lookup e L = none →
      findAllBody (fuel + 1) [] (.var L) k e = k (bind e L (.atom "[]"))) ∧
    (∀ (L : Int) (e : ETree), EnvWF e →
      lookup (bind e L (.atom "[]")) L = some (.atom "[]")) ∧
    (∀ (fuel : Nat) (L : Int) (e : ETree),
      lookup e L = none →
      forceRun 2 [findAllP (fuel + 1) [] (.var L) (fun _ => .final true) e]
        = some (.inl true)) := by
  have hbody : ∀ (fuel : Nat) (L : Int) (k : ETree → Prom) (e : ETree),
      lookup e L = none →
      findAllBody (fuel + 1) [] (.var L) k e = k (bind e L (.atom "[]")) := by
    intro fuel L k e hL
    have hx : resolve e (.var L) = .var L := resolve_var_of_lookup_none e L hL
    have hy : resolve e (.atom "[]") = .atom "[]" := resolve_atom e _
    unfold findAllBody
    show (match unifyF e (fuel + 1) (.var L) (listTerm []) false with
      | some (e', true) => k e'
      | some (_, false) => Prom.final false
      | none => Prom.final false) = k (bind e L (.atom "[]"))
    have hu : unifyF e (fuel + 1) (.var L) (listTerm []) false
        = some (bind e L (.atom "[]"), true) := by
      show unifyF e (fuel + 1) (.var L) (.atom "[]") false = _
      simp only [unifyF, hx, hy]
      rfl
    rw [hu]
  refine ⟨?_, hbody, ?_, ?_⟩
  · intro cmp mkK
    rfl
  · intro L e hwf
    exact lookup_bind_self e L (.atom "[]") hwf
  · intro fuel L e hL
    unfold findAllP
    rw [hbody fuel L (fun _ => .final true) e hL]
    rfl

/-- Witness for C4 at concrete inputs: empty bagof over any grouping
fails; findall over no solutions with the fresh variable `L = _2` in the
empty environment invokes its continuation once with `L ↦ []`, looks up
to `[]`, and forces to `true`. -/
theorem C4_bagof_empty_vs_findall_empty_witness :
    forceRun 6 [collectionOfP (fun _ _ => 0) [] (fun _ => .final false)]
      = some (.inl false) ∧
    findAllBody 1 [] (.var 2) (fun _ => .final true) .nil
      = (fun (_ : ETree) => Prom.final true) (bind .nil 2 (.atom "[]")) ∧
    lookup (bind .nil 2 (.atom "[]")) 2 = some (.atom "[]") ∧
    forceRun 2 [findAllP 1 [] (.var 2) (fun _ => .final true) .nil]
      = some (.inl true) :=
  ⟨C4_bagof_empty_vs_findall_empty.1 (fun _ _ => 0) (fun _ => .final false),
   C4_bagof_empty_vs_findall_empty.2.1 0 2 (fun _ => .final true) .nil rfl,
   C4_bagof_empty_vs_findall_empty.2.2.1 2 .nil (by decide),
   C4_bagof_empty_vs_findall_empty.2.2.2 0 2 .nil rfl⟩

/-! ## The procedure database and current_predicate/1 -/

/-- Procedure indicator `(name, arity)` (`procedureIndicator` in
src/engine/variable.go, vm.go document). -/
structure PI where
  name : String
  arity : Int
deriving Repr, DecidableEq

/-- Kind of a stored procedure, as far as `current_predicate/1` cares:
`clauses` (user-defined clause lists) and `staticP` (compiled,
non-modifiable) are enumerated; `builtin` (native predicates) are
skipped. -/
inductive ProcKind where
  | clauses
  | staticP
  | builtin
deriving Repr, DecidableEq

/-- Model of `orderedmap.OrderedMap[procedureIndicator, procedure].Set`,
the insertion-ordered map that `VM.setProcedure` (src/engine/variable.go,
vm.go document) stores procedures in (the wk8 go-ordered-map dependency):
setting an existing key updates its value in place, keeping its
position; setting a new key appends it. -/
def omapSet (m : List (PI × ProcKind)) (k : PI) (v : ProcKind) :
    List (PI × ProcKind) :=
  match m with
  | [] => [(k, v)]
  | (k', v') :: rest =>
    if k' = k then (k', v) :: rest else (k', v') :: omapSet rest k v

/-- Model of `VM.getProcedure` / `OrderedMap.Get`. -/
def omapGet (m : List (PI × ProcKind)) (k : PI) : Option ProcKind :=
  match m with
  | [] => none
  | (k', v) :: rest => if k' = k then some v else omapGet rest k

/-- The procedure database built from a registration sequence:
`vm.procedures` starts empty (`orderedmap.New`) and every registration
or assertion goes through `vm.setProcedure`. -/
def buildDB (regs : List (PI × ProcKind)) : List (PI × ProcKind) :=
  regs.foldl (fun m r => omapSet m r.1 r.2) []

/-- Modelled from the spec: the enumeration of `current_predicate/1`
over the procedure database.  The `VM.CurrentPredicate` under
src/engine/builtin.go belongs to an earlier release whose `VM` kept
`procedures` in a plain Go map (it ranges over it directly), which
cannot compile against this repository's `VM` (vm.go document in
src/engine/variable.go), whose `procedures` is the insertion-ordered
`orderedmap`; the current enumeration code is not under src/.  The spec
fixes the behaviour: "`current_predicate/1` enumerates indicators in
their insertion order", keeping, as the old code also did, only the
user-defined and static procedures and skipping builtins. -/
def currentPredicateOrder (m : List (PI × ProcKind)) : List PI :=
  (m.filter (fun p => p.2 = ProcKind.clauses ∨ p.2 = ProcKind.staticP)).map Prod.fst

/-- First-registration order of the indicators of a registration
sequence (the "insertion order" of the claim). -/
def insKey (ks : List PI) (k : PI) : List PI :=
  if k ∈ ks then ks else ks ++ [k]

/-- Indicators of a registration sequence in first-registration order. -/
def firstKeys (regs : List (PI × ProcKind)) : List PI :=
  regs.foldl (fun ks r => insKey ks r.1) []

theorem omapSet_keys (m : List (PI × ProcKind)) (k : PI) (v : ProcKind) :
    (omapSet m k v).map Prod.fst = insKey (m.map Prod.fst) k := by
  induction m with
  | nil => simp [omapSet, insKey]
  | cons p rest ih =>
    obtain ⟨k', v'⟩ := p
    by_cases h : k' = k
    · subst h
      simp [omapSet, insKey]
    · have hne : k ≠ k' := fun he => h he.symm
      simp only [omapSet, if_neg h, List.map_cons, ih, insKey]
      by_cases hmem : k ∈ rest.map Prod.fst
      · rw [if_pos hmem, if_pos (List.mem_cons_of_mem _ hmem)]
      · rw [if_neg hmem, if_neg (by simp [hmem, hne])]
        simp

theorem buildDB_keys_aux (regs : List (PI × ProcKind)) :
    ∀ m : List (PI × ProcKind),
      (regs.foldl (fun m r => omapSet m r.1 r.2) m).map Prod.fst =
        regs.foldl (fun ks r => insKey ks r.1) (m.map Prod.fst) := by
  induction regs with
  | nil => intro m; rfl
  | cons r rest ih =>
    intro m
    simp only [List.foldl_cons]
    rw [ih (omapSet m r.1 r.2), omapSet_keys]

/-- Keys of the database are the indicators in first-registration
order. -/
theorem buildDB_keys (regs : List (PI × ProcKind)) :
    (buildDB regs).map Prod.fst = firstKeys regs :=
  buildDB_keys_aux regs []

theorem omapSet_fresh (m : List (PI × ProcKind)) (k : PI) (v : ProcKind)
    (h : k ∉ m.map Prod.fst) : omapSet m k v = m ++ [(k, v)] := by
  induction m with
  | nil => rfl
  | cons p rest ih =>
    obtain ⟨k', v'⟩ := p
    have hne : k' ≠ k := by
      intro he
      exact h (by simp [he])
    simp only [omapSet, if_neg hne, List.cons_append]
    rw [ih (fun hmem => h (by simp [hmem]))]

theorem buildDB_nodup_aux (regs : List (PI × ProcKind)) :
    ∀ m : List (PI × ProcKind),
      (m.map Prod.fst ++ regs.map Prod.fst).Nodup →
      regs.foldl (fun m r => omapSet m r.1 r.2) m = m ++ regs := by
  induction regs with
  | nil => intro m _; simp
  | cons r rest ih =>
    intro m hnodup
    obtain ⟨k, v⟩ := r
    have hfresh : k ∉ m.map Prod.fst := by
      intro hmem
      rw [List.nodup_append] at hnodup
      exact hnodup.2.2 hmem (by simp)
    simp only [List.foldl_cons]
    rw [omapSet_fresh m k v hfresh,
      ih (m ++ [(k, v)]) (by simpa [List.append_assoc] using hnodup)]
    simp

/-- C5.  The procedure database preserves the insertion order of
procedure indicators—the keys of `buildDB regs` are the indicators in
first-registration order for every registration sequence—and the
`current_predicate/1` enumeration (modelled from the spec, see
`currentPredicateOrder`) lists the user-defined indicators in exactly
that order: it is an order-preserving sublist of the insertion order in
general, and for a sequence of distinct, non-builtin registrations it is
exactly the registration order.  The enumeration is a function of the
registration sequence, so it is deterministic by construction. -/
theorem C5_current_predicate_insertion_order (regs : List (PI × ProcKind)) :
    (buildDB regs).map Prod.fst = firstKeys regs ∧
    (currentPredicateOrder (buildDB regs)).Sublist (firstKeys regs) ∧
    ((regs.map Prod.fst).Nodup →
      (∀ r ∈ regs, r.2 ≠ ProcKind.builtin) →
      currentPredicateOrder (buildDB regs) = regs.map Prod.fst) := by
  refine ⟨buildDB_keys regs, ?_, ?_⟩
  · rw [← buildDB_keys regs]
    exact ((buildDB regs).filter_sublist).map Prod.fst
  · intro hnodup hkinds
    have hdb : buildDB regs = regs := by
      have := buildDB_nodup_aux regs []
      simpa using this (by simpa using hnodup)
    rw [hdb]
    unfold currentPredicateOrder
    rw [List.filter_eq_self.mpr ?_]
    intro p hp
    have := hkinds p hp
    cases hkind : p.2 with
    | clauses => simp
    | staticP => simp
    | builtin => exact absurd hkind this

/-- Witness for C5: registering `foo/1` (user clauses) then `bar/2`
(static) enumerates `foo/1, bar/2`, the registration order. -/
theorem C5_current_predicate_insertion_order_witness :
    currentPredicateOrder (buildDB
        [(⟨"foo", 1⟩, ProcKind.clauses), (⟨"bar", 2⟩, ProcKind.staticP)])
      = [⟨"foo", 1⟩, ⟨"bar", 2⟩] := by
  have h := (C5_current_predicate_insertion_order
    [(⟨"foo", 1⟩, ProcKind.clauses), (⟨"bar", 2⟩, ProcKind.staticP)]).2.2
    (by decide)
    (by intro r hr; rcases List.mem_cons.mp hr with h | h
        · rw [h]; decide
        · rw [List.mem_singleton] at h; rw [h]; decide)
  simpa using h

/-! ## get_byte/2 byte bounds checking (src/engine/builtin.go, VM.GetByte) -/

/-- Outcomes of the modelled fragment of `VM.GetByte`:
`errTypeInByte c` models `Error(typeErrorInByte(inByte))`;
`readThenUnify b` models a successful one-byte read followed by
`Delay(Unify(inByte, Integer(b), k, env))` — a byte has been consumed
from the stream; `eofHandling` stands for the `io.EOF` branch (its
eof-action dispatch is irrelevant to the claim). -/
inductive GetByteOut where
  | errTypeInByte (culprit : PTerm)
  | readThenUnify (b : Nat)
  | eofHandling
deriving Repr

/-- The `s.Source.Read(b)` step on a binary input stream modelled as its
remaining byte list. -/
def readFrom (bytes : List Nat) : GetByteOut :=
  match bytes with
  | b :: _ => .readThenUnify b
  | [] => .eofHandling

/-- Model of the in-byte argument check and read of `VM.GetByte`
(src/engine/builtin.go), after the stream checks passed (binary input
stream, modelled by its byte list).  The Go switch reads:

  - `Variable`: fall through to the read;
  - `Integer`: `if b < 0 || b > 255 \x7b Error(typeErrorInByte(inByte)) \x7d`
    — the constructed error promise is **discarded** (the statement has
    no `return`) and control falls through to the read;
  - default: `return Error(typeErrorInByte(inByte))`.

The discarded error is reproduced faithfully below. -/
def getByteCheckAndRead (bytes : List Nat) (inByte : PTerm) (e : ETree) :
    GetByteOut :=
  match resolve e inByte with
  | .var _ => readFrom bytes
  | .int b =>
    if b < 0 ∨ b > 255 then
      let _discarded := GetByteOut.errTypeInByte inByte
      readFrom bytes
    else readFrom bytes
  | _ => .errTypeInByte inByte

/-- C8 evaluation at the failing input.  With the in-byte argument bound
to `256` (outside 0..255) and a byte `7` available on the binary input
stream, `GetByte` proceeds to read the byte and goes on to unify `256`
with it (which then fails, having consumed the byte), instead of raising
`type_error(in_byte, 256)`: the error the bounds check constructs is
discarded because the statement lacks a `return`.  The contrast case
shows the default branch (a non-integer, non-variable argument), whose
`return` is present, does raise the type error. -/
theorem C8_get_byte_bounds_check_code_evaluation :
    getByteCheckAndRead [7] (.int 256) .nil = .readThenUnify 7 ∧
    getByteCheckAndRead [7] (.int 256) .nil ≠ .errTypeInByte (.int 256) ∧
    getByteCheckAndRead [7] (.compound "f" []) .nil
      = .errTypeInByte (.compound "f" []) := by
  have h1 : getByteCheckAndRead [7] (.int 256) .nil = .readThenUnify 7 := by
    unfold getByteCheckAndRead
    rw [resolve_int]
    rfl
  refine ⟨h1, ?_, ?_⟩
  · rw [h1]
    intro h
    cases h
  · unfold getByteCheckAndRead
    rw [resolve_compound]

end Spec2Proof
